import Mathlib

/-!
# Verification of the radioscheduler rostering engine

A shallow embedding of the scheduling core of the radioscheduler repository:
the schedule data model (`src/constants.ts`, `src/solver/solverTypes.ts`),
shift and eligibility rules (`src/solver/utils/shiftUtils.ts`), schedule
manipulation utilities (`src/solver/utils/scheduleOps.ts`), the day scheduler
(`src/solver/dayScheduler.ts`, `src/solver/utils/assignmentUtils.ts`), the
shift-aware fallback (`src/solver/utils/fallbackUtils.ts`), the UT weekly
balancer (`src/solver/utils/utAssignmentUtils.ts`) and the week scheduler
(`src/solver/weekScheduler.ts`).

Modelling conventions:
* TypeScript string-union types `Day`, `TimeSlot`, `Column` become inductives;
  the enumeration lists `days`, `timeSlots`, `columns` keep their source order.
* A `ScheduleDay` is a total function `TimeSlot → Column → String`, a week
  `Schedule` a total function `Day → ScheduleDay`; in-place mutation becomes
  explicit state passing (a separate heap model below captures which
  references the engine writes through).
* Fields that the persisted data stores dynamically (string badge numbers)
  are modelled in their normalized numeric shape; `workDays`,
  `preferredChannels` and `preferredTimeBlocks` are modelled over the fixed
  enumerations.  JavaScript object iteration over a week (`Object.entries`)
  follows the fixed `days` insertion order used everywhere in the source.
* `Array.prototype.sort` (stable in the engines the app runs on) is modelled
  by the stable `List.insertionSort`.
-/

set_option maxRecDepth 20000

/-- The seven weekday names of `constants.ts`. -/
inductive Day where
  | monday | tuesday | wednesday | thursday | friday | saturday | sunday
  deriving DecidableEq, Repr, Fintype

/-- The twelve two-hour time slots of `constants.ts`, in grid order. -/
inductive TimeSlot where
  | t0330 | t0530 | t0730 | t0930 | t1130 | t1330
  | t1530 | t1730 | t1930 | t2130 | t2330 | t0130
  deriving DecidableEq, Repr, Fintype

/-- The eight columns (channels) of `constants.ts`. -/
inductive Column where
  | SW | CE | SE | NE | NW | MT | UT | RELIEF
  deriving DecidableEq, Repr, Fintype

open Day TimeSlot Column

/-- `days` array of `constants.ts` (insertion order of every week object). -/
def days : List Day :=
  [monday, tuesday, wednesday, thursday, friday, saturday, sunday]

/-- `timeSlots` array of `constants.ts`. -/
def timeSlots : List TimeSlot :=
  [t0330, t0530, t0730, t0930, t1130, t1330, t1530, t1730, t1930, t2130, t2330, t0130]

/-- `columns` array of `constants.ts`. -/
def columns : List Column :=
  [SW, CE, SE, NE, NW, MT, UT, RELIEF]

/-- `WEEKDAY_MT_DISABLED` of `constants.ts`. -/
def WEEKDAY_MT_DISABLED : List TimeSlot := [t0330, t0530]

/-- `WEEKEND_MT_DISABLED` of `constants.ts`. -/
def WEEKEND_MT_DISABLED : List TimeSlot := [t0330, t0530, t0730, t0930, t1130, t1330]

/-- `isCellDisabled` of `constants.ts`: the externally supplied business rule
blocking the MT channel on early-morning / weekend-morning windows. -/
def isCellDisabled (day : Day) (slot : TimeSlot) (column : Column) : Bool :=
  if column ≠ MT then false
  else
    let isWeekend := day = saturday ∨ day = sunday
    if isWeekend then WEEKEND_MT_DISABLED.contains slot
    else WEEKDAY_MT_DISABLED.contains slot

/-- `ExtendedDispatcher` of `appTypes.ts` (normalized shape, see header). -/
structure ExtendedDispatcher where
  id : String
  name : String := ""
  badgeNumber : Option Nat := none
  seniority : Option Nat := none
  shift : Option String := none
  workDays : List Day := []
  preferredChannels : List Column := []
  preferredTimeBlocks : List TimeSlot := []
  minimumRadioOnly : Bool := false
  wantsExtraUtility : Bool := false
  excludeFromAutoSchedule : Bool := false
  isTrainee : Bool := false
  traineeOf : Option String := none
  followTrainerSchedule : Bool := false
  deriving DecidableEq, Repr

/-- First maximal digit run of a string, as matched by the regex in
`extractBadgeNumber` (`appTypes.ts`); `none` when the string has no digit. -/
def firstDigitRun (s : String) : Option Nat :=
  let rec go : List Char → Option Nat
    | [] => none
    | c :: rest =>
      if c.isDigit then
        some ((c :: rest.takeWhile Char.isDigit).foldl
          (fun acc d => acc * 10 + (d.toNat - 48)) 0)
      else go rest
  go s.toList

/-- `extractBadgeNumber` of `appTypes.ts`: digits parsed out of the id, with a
char-code-sum hash fallback. -/
def extractBadgeNumber (id : String) : Nat :=
  match firstDigitRun id with
  | some n => n
  | none => (id.toList.foldl (fun acc c => acc + c.toNat) 0) % 10000

/-- `SHIFT_SLOTS` of `shiftUtils.ts`: the five contiguous slots of each shift
letter; `none` for a string that is not a shift key. -/
def SHIFT_SLOTS (shift : String) : Option (List TimeSlot) :=
  if shift = "A" then some [t0330, t0530, t0730, t0930, t1130]
  else if shift = "B" then some [t0730, t0930, t1130, t1330, t1530]
  else if shift = "C" then some [t1130, t1330, t1530, t1730, t1930]
  else if shift = "D" then some [t1330, t1530, t1730, t1930, t2130]
  else if shift = "E" then some [t1730, t1930, t2130, t2330, t0130]
  else if shift = "F" then some [t2130, t2330, t0130, t0330, t0530]
  else none

/-- `getEligibleSlots` of `shiftUtils.ts`. -/
def getEligibleSlots (d : ExtendedDispatcher) : List TimeSlot :=
  match d.shift with
  | none => timeSlots
  | some s => (SHIFT_SLOTS s).getD timeSlots

/-- `isSlotInShift` of `shiftUtils.ts`. -/
def isSlotInShift (d : ExtendedDispatcher) (slot : TimeSlot) : Bool :=
  match d.shift with
  | none => true
  | some s =>
    match SHIFT_SLOTS s with
    | some shiftSlots => shiftSlots.contains slot
    | none => true

/-- `getPreviousDay` of `shiftUtils.ts`. -/
def getPreviousDay (day : Day) : Day :=
  match day with
  | monday => sunday
  | tuesday => monday
  | wednesday => tuesday
  | thursday => wednesday
  | friday => thursday
  | saturday => friday
  | sunday => saturday

/-- `OVERNIGHT_SLOTS_E` of `shiftUtils.ts`. -/
def OVERNIGHT_SLOTS_E : List TimeSlot := [t2330, t0130]

/-- `OVERNIGHT_SLOTS_F` of `shiftUtils.ts`. -/
def OVERNIGHT_SLOTS_F : List TimeSlot := [t2330, t0130, t0330, t0530]

/-- `isSpilloverSlotForShift` of `shiftUtils.ts`. -/
def isSpilloverSlotForShift (shift : Option String) (slot : TimeSlot) : Bool :=
  match shift with
  | none => false
  | some s =>
    if s = "E" then OVERNIGHT_SLOTS_E.contains slot
    else if s = "F" then OVERNIGHT_SLOTS_F.contains slot
    else false

/-- `isEligibleOnDayForSlot` of `shiftUtils.ts`. -/
def isEligibleOnDayForSlot (d : ExtendedDispatcher) (day : Day) (slot : TimeSlot)
    (trainer : Option ExtendedDispatcher := none) : Bool :=
  let effectiveDays :=
    match trainer with
    | some t => if d.followTrainerSchedule then t.workDays else d.workDays
    | none => d.workDays
  let effectiveShift :=
    match trainer with
    | some t =>
      if d.followTrainerSchedule then (t.shift.or d.shift) else d.shift
    | none => d.shift
  if effectiveDays.isEmpty then true
  else if effectiveDays.contains day then true
  else
    let prev := getPreviousDay day
    if effectiveShift.isSome ∧ isSpilloverSlotForShift effectiveShift slot
        ∧ effectiveDays.contains prev then
      true
    else false

/-! ## Kernel-reducible string primitives

`String.split` / `String.prototype.trim` of JavaScript, re-implemented by
structural recursion over the character list so that concrete schedules
evaluate inside the kernel. -/

/-- Split a character list on a separator (JavaScript `split` semantics:
the empty string yields one empty field). -/
def splitCharList (sep : Char) : List Char → List (List Char)
  | [] => [[]]
  | c :: cs =>
    if c = sep then [] :: splitCharList sep cs
    else
      match splitCharList sep cs with
      | [] => [[c]]
      | h :: t => (c :: h) :: t

/-- `value.split('/')`. -/
def jsSplitSlash (s : String) : List String :=
  (splitCharList '/' s.data).map String.mk

/-- `value.trim()` (whitespace stripped from both ends). -/
def jsTrim (s : String) : String :=
  String.mk (((s.data.dropWhile Char.isWhitespace).reverse.dropWhile
    Char.isWhitespace).reverse)

/-- `value.includes('/')`. -/
def jsHasSlash (s : String) : Bool :=
  s.data.contains '/'

/-- `parts.join('/')`. -/
def joinSlash : List String → String
  | [] => ""
  | [p] => p
  | p :: rest => p ++ "/" ++ joinSlash rest

/-! ## Schedule data model and `scheduleOps.ts` -/

/-- `ScheduleDay` of `solverTypes.ts`: one cell value per (slot, column). -/
def ScheduleDay : Type := TimeSlot → Column → String

/-- `Schedule` of `constants.ts`: one `ScheduleDay` per weekday. -/
def Schedule : Type := Day → ScheduleDay

/-- Pointwise cell write (`schedule[slot][col] = value` in the source). -/
def setCell (d : ScheduleDay) (slot : TimeSlot) (col : Column) (v : String) :
    ScheduleDay :=
  fun s c => if s = slot ∧ c = col then v else d s c

/-- `cloneScheduleDay` of `scheduleOps.ts` (value-level identity; the heap
model below captures that it allocates a fresh object). -/
def cloneScheduleDay (day : ScheduleDay) : ScheduleDay :=
  fun slot col => day slot col

/-- `createEmptyScheduleDay` of `scheduleOps.ts`. -/
def createEmptyScheduleDay : ScheduleDay :=
  fun _ _ => ""

/-- `findDispatcherByIdentifier` of `scheduleOps.ts`. -/
def findDispatcherByIdentifier (identifier : String)
    (dispatchers : List ExtendedDispatcher) : Option ExtendedDispatcher :=
  let base :=
    if identifier ≠ "" ∧ jsHasSlash identifier then
      jsTrim ((jsSplitSlash identifier).headD "")
    else identifier
  dispatchers.find? (fun d => d.id = base ∨ d.name = base)

/-- The participant identifiers of a cell value as read by
`isDispatcherInTimeslot` (`cell.split('/').map(trim).filter(Boolean)`). -/
def cellParticipants (cell : String) : List String :=
  ((jsSplitSlash cell).map jsTrim).filter (fun p => p ≠ "")

/-- `isDispatcherInTimeslot` of `scheduleOps.ts`. -/
def isDispatcherInTimeslot (dispatcherKey : String) (schedule : ScheduleDay)
    (slot : TimeSlot) : Bool :=
  columns.any (fun col =>
    let cell := schedule slot col
    if cell = "" then false
    else (cellParticipants cell).contains dispatcherKey)

/-- `hasAnyAssignments` of `scheduleOps.ts`. -/
def hasAnyAssignments (day : ScheduleDay) : Bool :=
  timeSlots.any (fun slot => columns.any (fun col => day slot col ≠ ""))

/-- `mergeScheduleDays` of `scheduleOps.ts`: the overlay wins wherever it is
non-empty (and non-whitespace). -/
def mergeScheduleDays (base overlay : ScheduleDay) : ScheduleDay :=
  fun slot col =>
    let overlayValue := overlay slot col
    if overlayValue ≠ "" ∧ jsTrim overlayValue ≠ "" then overlayValue
    else base slot col

/-- `normalizeIdentifierToId` of `scheduleOps.ts`. -/
def normalizeIdentifierToId (identifier : String)
    (dispatchers : List ExtendedDispatcher) : String :=
  if identifier = "" then identifier
  else
    let trimmed := jsTrim identifier
    match dispatchers.find? (fun d => d.id = trimmed ∨ d.name = trimmed) with
    | some m => m.id
    | none => trimmed

/-- `normalizeScheduleDayToIds` of `scheduleOps.ts`. -/
def normalizeScheduleDayToIds (day : ScheduleDay)
    (dispatchers : List ExtendedDispatcher) : ScheduleDay :=
  fun slot col =>
    let val := day slot col
    if val = "" then val
    else
      let parts := cellParticipants val
      if parts = [] then val
      else joinSlash (parts.map (fun p => normalizeIdentifierToId p dispatchers))

/-- `normalizeScheduleWeekToIds` of `scheduleOps.ts`. -/
def normalizeScheduleWeekToIds (week : Schedule)
    (dispatchers : List ExtendedDispatcher) : Schedule :=
  fun d => normalizeScheduleDayToIds (week d) dispatchers

/-! ## `assignmentUtils.ts`: seniority, preference and balancing assignment -/

/-- `getSeniorityRank` of `assignmentUtils.ts` (lower = more senior); the
string-badge legacy branch is subsumed by the normalized numeric badge. -/
def getSeniorityRank (d : ExtendedDispatcher) : Nat :=
  match d.seniority with
  | some s => s
  | none =>
    match d.badgeNumber with
    | some b => b
    | none => extractBadgeNumber d.id

/-- JavaScript truthiness of the `traineeOf` field (`d.isTrainee || d.traineeOf`). -/
def isTraineeLike (d : ExtendedDispatcher) : Bool :=
  d.isTrainee || (match d.traineeOf with | some t => t ≠ "" | none => false)

/-- `prepareDispatchers` of `assignmentUtils.ts`: availability filter plus
stable ascending sort by seniority rank. -/
def prepareDispatchers (dispatchers : List ExtendedDispatcher) (day : Day) :
    List ExtendedDispatcher :=
  let available := dispatchers.filter (fun d =>
    if d.excludeFromAutoSchedule then false
    else if isTraineeLike d then false
    else if d.workDays ≠ [] ∧ ¬(d.workDays.contains day) then
      let prev := getPreviousDay day
      (d.shift = some "E" ∨ d.shift = some "F") ∧ d.workDays.contains prev
    else true)
  available.insertionSort (fun a b => getSeniorityRank a ≤ getSeniorityRank b)

/-- `Assignment` of `solverTypes.ts`. -/
structure Assignment where
  slot : TimeSlot
  col : Column
  priority : Nat
  deriving DecidableEq, Repr

/-- `hasPreferences` of `assignmentUtils.ts`. -/
def hasPreferences (d : ExtendedDispatcher) : Bool :=
  d.preferredChannels ≠ [] ∨ d.preferredTimeBlocks ≠ []

/-- `generatePreferredAssignments` of `assignmentUtils.ts`: ranked
(slot, channel) candidates over currently-empty cells, sorted by
`timeRank * (channelCount + 1) + channelRank`. -/
def generatePreferredAssignments (d : ExtendedDispatcher) (schedule : ScheduleDay) :
    List Assignment :=
  let eligibleSlots := getEligibleSlots d
  let rawChannelPrefs := if d.preferredChannels ≠ [] then d.preferredChannels else columns
  let channelPrefs := rawChannelPrefs.filter (fun col => col ≠ UT ∧ col ≠ RELIEF)
  let timePrefs := if d.preferredTimeBlocks ≠ [] then d.preferredTimeBlocks else eligibleSlots
  let channelWeightBase := channelPrefs.length + 1
  let assignments := timePrefs.enum.flatMap (fun ts =>
    if ¬(eligibleSlots.contains ts.2) then []
    else channelPrefs.enum.filterMap (fun cs =>
      if schedule ts.2 cs.2 ≠ "" then none
      else some ⟨ts.2, cs.2, ts.1 * channelWeightBase + cs.1⟩))
  assignments.insertionSort (fun a b => a.priority ≤ b.priority)

/-- Per-slot / per-day fill counts used by the balancing searches of
`assignmentUtils.ts` (UT and RELIEF excluded). -/
def slotFillCount (schedule : ScheduleDay) (s : TimeSlot) : Nat :=
  (columns.filter (fun c =>
    c ≠ UT ∧ c ≠ RELIEF ∧ schedule s c ≠ "" ∧ jsTrim (schedule s c) ≠ "")).length

/-- Column fill count across the day (`colFillCount` of `assignmentUtils.ts`). -/
def colFillCount (schedule : ScheduleDay) (c : Column) : Nat :=
  (timeSlots.filter (fun s => schedule s c ≠ "" ∧ jsTrim (schedule s c) ≠ "")).length

/-- The least-filled (slot, column) search shared by `assignMinimumSlot` and
the fallback half of `assignExtraRadioSlot`. -/
def minimumSlotSearch (d : ExtendedDispatcher) (schedule : ScheduleDay) (day : Day) :
    Option (TimeSlot × Column) :=
  let sortedEligibleSlots := (getEligibleSlots d).insertionSort
    (fun a b => slotFillCount schedule a ≤ slotFillCount schedule b)
  sortedEligibleSlots.findSome? (fun slot =>
    if ¬(isEligibleOnDayForSlot d day slot = true) then none
    else if isDispatcherInTimeslot d.id schedule slot then none
    else
      let candidateCols := columns.filter (fun c =>
        c ≠ UT ∧ c ≠ RELIEF ∧ schedule slot c = "" ∧ isCellDisabled day slot c = false)
      match candidateCols.insertionSort
          (fun c1 c2 => colFillCount schedule c1 ≤ colFillCount schedule c2) with
      | [] => none
      | chosen :: _ => some (slot, chosen))

/-- `assignMinimumSlot` of `assignmentUtils.ts`. -/
def assignMinimumSlot (d : ExtendedDispatcher) (schedule : ScheduleDay) (day : Day) :
    ScheduleDay × Option Assignment :=
  match minimumSlotSearch d schedule day with
  | some (slot, col) => (setCell schedule slot col d.id, some ⟨slot, col, 0⟩)
  | none => (schedule, none)

/-- The validity re-check loop of `assignPreferredSlot`
(`assignmentUtils.ts`): first ranked candidate passing the day, disabled-cell,
double-booking and still-empty checks. -/
def preferredScan (d : ExtendedDispatcher) (schedule : ScheduleDay) (day : Day) :
    Option Assignment :=
  (generatePreferredAssignments d schedule).find? (fun a =>
    isEligibleOnDayForSlot d day a.slot &&
    !(isCellDisabled day a.slot a.col) &&
    !(isDispatcherInTimeslot d.id schedule a.slot) &&
    !(decide (schedule a.slot a.col ≠ "" ∧ jsTrim (schedule a.slot a.col) ≠ "")))

/-- `assignPreferredSlot` of `assignmentUtils.ts`. -/
def assignPreferredSlot (d : ExtendedDispatcher) (schedule : ScheduleDay) (day : Day) :
    ScheduleDay × Option Assignment :=
  match preferredScan d schedule day with
  | some a => (setCell schedule a.slot a.col d.id, some a)
  | none => (schedule, none)

/-- The preferred half of `assignExtraRadioSlot` (`assignmentUtils.ts`). -/
def extraPreferredScan (d : ExtendedDispatcher) (schedule : ScheduleDay) (day : Day) :
    Option Assignment :=
  ((generatePreferredAssignments d schedule).filter
      (fun a => a.col ≠ UT ∧ a.col ≠ RELIEF)).find? (fun a =>
    isEligibleOnDayForSlot d day a.slot &&
    decide (schedule a.slot a.col = "") &&
    !(isDispatcherInTimeslot d.id schedule a.slot) &&
    !(isCellDisabled day a.slot a.col))

/-- `assignExtraRadioSlot` of `assignmentUtils.ts`. -/
def assignExtraRadioSlot (d : ExtendedDispatcher) (schedule : ScheduleDay) (day : Day) :
    ScheduleDay × Option Assignment :=
  let preferredStep : Option Assignment :=
    if hasPreferences d then extraPreferredScan d schedule day else none
  match preferredStep with
  | some a => (setCell schedule a.slot a.col d.id, some a)
  | none =>
    match minimumSlotSearch d schedule day with
    | some (slot, col) => (setCell schedule slot col d.id, some ⟨slot, col, 0⟩)
    | none => (schedule, none)

/-! ## `dayScheduler.ts`: sanitation and the per-day passes -/

/-- `resolveParticipants` inside `sanitizeLockedAssignments`
(`dayScheduler.ts`): the resolvable dispatchers named by a cell value. -/
def resolveParticipants (value : String) (dispatchers : List ExtendedDispatcher) :
    List ExtendedDispatcher :=
  if value = "" then []
  else
    let parts :=
      if jsHasSlash value then (jsSplitSlash value).map jsTrim
      else [jsTrim value]
    parts.filterMap (fun p => findDispatcherByIdentifier p dispatchers)

/-- One participant's day/shift validation inside `sanitizeLockedAssignments`. -/
def sanitizeParticipantOk (day : Day) (slot : TimeSlot)
    (trainer : ExtendedDispatcher) (trainee : Option ExtendedDispatcher)
    (person : ExtendedDispatcher) : Bool :=
  let trainerRef : Option ExtendedDispatcher :=
    if person.followTrainerSchedule ∧ trainee = some person then some trainer else none
  let dayOk := isEligibleOnDayForSlot person day slot trainerRef
  let shiftSubject :=
    match trainerRef with
    | some tr =>
      match tr.shift with
      | some s => if s ≠ "" then { person with shift := some s } else person
      | none => person
    | none => person
  let shiftOk := isSlotInShift shiftSubject slot
  dayOk && shiftOk

/-- One cell of the sanitation pass of `sanitizeLockedAssignments`
(`dayScheduler.ts`), threading the per-slot set of seen trainer ids. -/
def sanitizeCell (day : Day) (dispatchers : List ExtendedDispatcher)
    (slot : TimeSlot) (state : ScheduleDay × List String) (col : Column) :
    ScheduleDay × List String :=
  let sched := state.1
  let seen := state.2
  let val := sched slot col
  if val = "" then state
  else if isCellDisabled day slot col then (setCell sched slot col "", seen)
  else
    match resolveParticipants val dispatchers with
    | [] => (setCell sched slot col "", seen)
    | trainer :: rest =>
      let trainee := rest.head?
      let valid :=
        (trainer :: rest).all (sanitizeParticipantOk day slot trainer trainee) &&
        !(seen.contains trainer.id)
      if valid then (sched, trainer.id :: seen)
      else (setCell sched slot col "", seen)

/-- `sanitizeLockedAssignments` of `dayScheduler.ts`. -/
def sanitizeLockedAssignments (day : Day) (schedule : ScheduleDay)
    (dispatchers : List ExtendedDispatcher) : ScheduleDay :=
  timeSlots.foldl (fun sched slot =>
    (columns.foldl (sanitizeCell day dispatchers slot) (sched, ([] : List String))).1)
    (cloneScheduleDay schedule)

/-- `processDispatcherAssignment` of `dayScheduler.ts`: preferred first,
minimum-slot rescue otherwise. -/
def processDispatcherAssignment (d : ExtendedDispatcher) (schedule : ScheduleDay)
    (day : Day) : ScheduleDay × Bool :=
  if ¬(hasPreferences d = true) then
    let r := assignMinimumSlot d schedule day
    (r.1, r.2.isSome)
  else
    let preferred := assignPreferredSlot d schedule day
    if preferred.2.isSome then (preferred.1, true)
    else
      let fallback := assignMinimumSlot d preferred.1 day
      (fallback.1, fallback.2.isSome)

/-- `processDispatcherAssignments` of `dayScheduler.ts` (primary pass). -/
def processDispatcherAssignments (schedule : ScheduleDay)
    (dispatchers : List ExtendedDispatcher) (day : Day) : ScheduleDay :=
  dispatchers.foldl (fun sched d => (processDispatcherAssignment d sched day).1) schedule

/-- `processExtraRadioAssignments` of `dayScheduler.ts` (extra-radio pass). -/
def processExtraRadioAssignments (schedule : ScheduleDay)
    (dispatchers : List ExtendedDispatcher) (day : Day) : ScheduleDay :=
  (dispatchers.filter (fun d => !d.minimumRadioOnly)).foldl
    (fun sched d => (assignExtraRadioSlot d sched day).1) schedule

/-- `generateScheduleForDay` of `dayScheduler.ts` (the `GenerateDay` entry
point): clone/seed, normalize, sanitize, primary pass, extra-radio pass. -/
def generateScheduleForDay (day : Day) (dispatchers : List ExtendedDispatcher)
    (locked : Option ScheduleDay) : ScheduleDay :=
  let schedule0 :=
    match locked with
    | some l => cloneScheduleDay l
    | none => createEmptyScheduleDay
  let schedule1 := normalizeScheduleDayToIds schedule0 dispatchers
  let schedule2 := sanitizeLockedAssignments day schedule1 dispatchers
  let sorted := prepareDispatchers dispatchers day
  let schedule3 := processDispatcherAssignments schedule2 sorted day
  processExtraRadioAssignments schedule3 sorted day

/-! ## `fallbackUtils.ts`: shift-aware fallback -/

/-- Placeholder dispatcher used only for total list indexing at positions
proved in range. -/
def defaultDispatcher : ExtendedDispatcher := { id := "" }

/-- Cell write at week level (`weekSchedule[day][slot][col] = v`). -/
def setWeekCell (week : Schedule) (day : Day) (slot : TimeSlot) (col : Column)
    (v : String) : Schedule :=
  fun d => if d = day then setCell (week day) slot col v else week d

/-- One column of the shift-aware fallback: round-robin pick over the
slot-eligible dispatchers, starting at `rrCursor + slotIdx`. -/
def fallbackColumnStep (eligibleForSlot : List ExtendedDispatcher) (slotIdx : Nat)
    (slot : TimeSlot) (state : ScheduleDay × List String × Nat) (col : Column) :
    ScheduleDay × List String × Nat :=
  let sched := state.1
  let used := state.2.1
  let rrCursor := state.2.2
  if sched slot col ≠ "" ∧ jsTrim (sched slot col) ≠ "" then state
  else
    let N := eligibleForSlot.length
    let pick := (List.range N).findSome? (fun k =>
      let idx := (rrCursor + slotIdx + k) % N
      let d := eligibleForSlot.getD idx defaultDispatcher
      if ¬(used.contains d.id) ∧ ¬(isDispatcherInTimeslot d.id sched slot = true) then
        some (d, idx)
      else none)
    match pick with
    | some (d, idx) =>
      (setCell sched slot col d.id, d.id :: used, (idx + 1) % N)
    | none => state

/-- One slot of the shift-aware fallback of `fallbackUtils.ts`. -/
def fallbackSlotStep (day : Day) (availableDispatchers : List ExtendedDispatcher)
    (state : ScheduleDay × Nat) (idxSlot : Nat × TimeSlot) : ScheduleDay × Nat :=
  let sched := state.1
  let rrCursor := state.2
  let slotIdx := idxSlot.1
  let slot := idxSlot.2
  let eligibleForSlot := availableDispatchers.filter (fun d =>
    isSlotInShift d slot && isEligibleOnDayForSlot d day slot)
  if eligibleForSlot = [] then state
  else
    let used := columns.foldl (fun u col => u ++ cellParticipants (sched slot col)) []
    let cols := columns.filter (fun c =>
      c ≠ UT ∧ c ≠ RELIEF ∧ isCellDisabled day slot c = false)
    let final := cols.foldl (fallbackColumnStep eligibleForSlot slotIdx slot)
      (sched, used, rrCursor)
    (final.1, final.2.2)

/-- `applyShiftAwareFallback` of `fallbackUtils.ts`. -/
def applyShiftAwareFallback (day : Day) (dispatchers : List ExtendedDispatcher)
    (schedule : ScheduleDay) : ScheduleDay :=
  let availableDispatchers := dispatchers.filter (fun d =>
    if d.excludeFromAutoSchedule then false
    else if isTraineeLike d then false
    else if d.workDays = [] then true
    else if d.workDays.contains day then true
    else (d.shift = some "E" ∨ d.shift = some "F")
      ∧ d.workDays.contains (getPreviousDay day))
  if availableDispatchers = [] then schedule
  else
    let fallbackSchedule := normalizeScheduleDayToIds schedule dispatchers
    (timeSlots.enum.foldl
      (fun st p => fallbackSlotStep day availableDispatchers st (p.1, p.2))
      (fallbackSchedule, 0)).1

/-! ## `utAssignmentUtils.ts`: the UT weekly balancer -/

/-- Per-dispatcher UT counters (`utAssignments` map; absent keys read 0). -/
def UTCounts : Type := String → Nat

/-- `getSenioritySortKey` of `utAssignmentUtils.ts` (same normalized shape as
`getSeniorityRank`). -/
def getSenioritySortKey (d : ExtendedDispatcher) : Nat :=
  match d.seniority with
  | some s => s
  | none =>
    match d.badgeNumber with
    | some b => b
    | none => extractBadgeNumber d.id

/-- The `idByAny` identifier-to-canonical-id map of `assignUTSlots`
(`utAssignmentUtils.ts`), built in roster order with later entries winning. -/
def buildIdByAny (dispatchers : List ExtendedDispatcher) : String → Option String :=
  dispatchers.foldl (fun m d =>
    let m1 : String → Option String :=
      if d.id ≠ "" then fun x => if x = d.id then some d.id else m x else m
    if d.name ≠ "" then fun x => if x = d.name then some d.id else m1 x else m1)
    (fun _ => none)

/-- Canonical key of a UT cell value (`idByAny.get(v.trim()) || v.trim()`). -/
def utKey (idByAny : String → Option String) (v : String) : String :=
  match idByAny (jsTrim v) with
  | some x => if x ≠ "" then x else jsTrim v
  | none => jsTrim v

/-- The UT-count seeding loop of `assignUTSlots`: existing UT assignments per
canonical key across the week. -/
def countExistingUT (week : Schedule) (idByAny : String → Option String) : UTCounts :=
  days.foldl (fun counts day =>
    timeSlots.foldl (fun counts slot =>
      let v := week day slot UT
      if v ≠ "" then
        fun x => if x = utKey idByAny v then counts x + 1 else counts x
      else counts) counts) (fun _ => 0)

/-- The UT eligibility filter and seniority sort of `assignUTSlots`. -/
def utEligibleSorted (dispatchers : List ExtendedDispatcher) :
    List ExtendedDispatcher :=
  (dispatchers.filter (fun d =>
    d.workDays ≠ [] ∧ ¬(d.excludeFromAutoSchedule = true) ∧ ¬(isTraineeLike d = true))).insertionSort
    (fun a b => getSenioritySortKey a ≤ getSenioritySortKey b)

/-- The work-day/shift-slot scan of `assignPrimaryUTSlots`: first empty,
conflict-free UT cell over the dispatcher's work days and shift slots. -/
def primaryUTScan (d : ExtendedDispatcher) (week : Schedule) :
    Option (Day × TimeSlot) :=
  (d.workDays.flatMap (fun day =>
    (getEligibleSlots d).map (fun slot => (day, slot)))).find? (fun p =>
      decide (week p.1 p.2 UT = "") &&
      !(isDispatcherInTimeslot d.id (week p.1) p.2))

/-- `assignPrimaryUTSlots` of `utAssignmentUtils.ts`. -/
def assignPrimaryUTSlots (week : Schedule) (counts : UTCounts)
    (sortedDispatchers : List ExtendedDispatcher) : Schedule × UTCounts :=
  sortedDispatchers.foldl (fun st d =>
    if st.2 d.id = 0 then
      match primaryUTScan d st.1 with
      | some (day, slot) =>
        (setWeekCell st.1 day slot UT d.id, fun x => if x = d.id then 1 else st.2 x)
      | none => st
    else st) (week, counts)

/-- The empty-UT-cell collection loop shared by the rescue and volunteer
passes of `utAssignmentUtils.ts` (week iterated in `days` order). -/
def collectEmptyUTSlots (week : Schedule) : List (Day × TimeSlot) :=
  days.flatMap (fun day =>
    timeSlots.filterMap (fun slot =>
      if week day slot UT = "" then some (day, slot) else none))

/-- The per-cell shift test of the rescue pass
(`SHIFT_SLOTS[dispatcher.shift] || []` under JS truthiness of the shift). -/
def fallbackShiftOk (d : ExtendedDispatcher) (slot : TimeSlot) : Bool :=
  match d.shift with
  | none => true
  | some s =>
    if s = "" then true
    else ((SHIFT_SLOTS s).getD []).contains slot

/-- `Array.prototype.findIndex`, by structural recursion. -/
def jsFindIndex (p : α → Bool) : List α → Option Nat
  | [] => none
  | x :: xs => if p x then some 0 else (jsFindIndex p xs).map (· + 1)

/-- The `findIndex` predicate of `assignFallbackUTSlots`. -/
def fallbackUTCellOk (d : ExtendedDispatcher) (week : Schedule)
    (p : Day × TimeSlot) : Bool :=
  (if d.workDays ≠ [] ∧ ¬(d.workDays.contains p.1) then false else true) &&
  fallbackShiftOk d p.2 &&
  !(isDispatcherInTimeslot d.id (week p.1) p.2)

/-- `assignFallbackUTSlots` of `utAssignmentUtils.ts` (rescue pass). -/
def assignFallbackUTSlots (week : Schedule) (counts : UTCounts)
    (missingDispatchers : List ExtendedDispatcher) : Schedule × UTCounts :=
  let emptySlots := collectEmptyUTSlots week
  if emptySlots = [] then (week, counts)
  else
    let sortedMissing := missingDispatchers.insertionSort
      (fun a b => getSenioritySortKey a ≤ getSenioritySortKey b)
    let final := sortedMissing.foldl (fun st d =>
      let week := st.1
      let counts := st.2.1
      let slots := st.2.2
      match jsFindIndex (fallbackUTCellOk d week) slots with
      | some i =>
        let p := slots.getD i (monday, t0330)
        if isDispatcherInTimeslot d.id (week p.1) p.2 then st
        else
          (setWeekCell week p.1 p.2 UT d.id,
           fun x => if x = d.id then 1 else counts x,
           slots.eraseIdx i)
      | none => st) (week, counts, emptySlots)
    (final.1, final.2.1)

/-- The per-cell shift test of the volunteer pass
(`dispatcher.shift && !SHIFT_SLOTS[dispatcher.shift]?.includes(slot)`). -/
def extraShiftOk (d : ExtendedDispatcher) (slot : TimeSlot) : Bool :=
  match d.shift with
  | none => true
  | some s =>
    if s = "" then true
    else
      match SHIFT_SLOTS s with
      | some slots => slots.contains slot
      | none => false

/-- Loop state of the volunteer-extra pass of `utAssignmentUtils.ts`. -/
structure ExtraUTState where
  week : Schedule
  counts : UTCounts
  idx : Nat
  progress : Bool

/-- One volunteer's turn inside a cycle of `assignExtraUTSlots`
(`utAssignmentUtils.ts`): skip when past the slot list, on a day/shift
mismatch or a double-booking, otherwise take the current cell and advance. -/
def extraUTStep (remainingSlots : List (Day × TimeSlot)) (st : ExtraUTState)
    (d : ExtendedDispatcher) : ExtraUTState :=
  if st.idx ≥ remainingSlots.length then st
  else
    let p := remainingSlots.getD st.idx (monday, t0330)
    if d.workDays ≠ [] ∧ ¬(d.workDays.contains p.1) then st
    else if ¬(extraShiftOk d p.2 = true) then st
    else if isDispatcherInTimeslot d.id (st.week p.1) p.2 then st
    else
      { week := setWeekCell st.week p.1 p.2 UT d.id,
        counts := fun x => if x = d.id then st.counts x + 1 else st.counts x,
        idx := st.idx + 1,
        progress := true }

/-- One full cycle over the volunteers in `assignExtraUTSlots` (the inner
`for` loop; the `break outer` is equivalent to idling out the cycle). -/
def extraUTCycle (remainingSlots : List (Day × TimeSlot))
    (extraUtDispatchers : List ExtendedDispatcher) (st : ExtraUTState) :
    ExtraUTState :=
  extraUtDispatchers.foldl (extraUTStep remainingSlots) st

/-- The fuelled outer `while` loop of `assignExtraUTSlots`: run cycles until
no cells remain or a cycle makes no progress.  `none` means the fuel ran out
(shown impossible for the fuel used below). -/
def extraUTLoop (remainingSlots : List (Day × TimeSlot))
    (extraUtDispatchers : List ExtendedDispatcher) :
    Nat → Schedule → UTCounts → Nat → Option (Schedule × UTCounts)
  | fuel, week, counts, idx =>
    if idx < remainingSlots.length then
      match fuel with
      | 0 => none
      | fuel + 1 =>
        let st := extraUTCycle remainingSlots extraUtDispatchers
          { week := week, counts := counts, idx := idx, progress := false }
        if st.progress then
          extraUTLoop remainingSlots extraUtDispatchers fuel st.week st.counts st.idx
        else some (st.week, st.counts)
    else some (week, counts)

/-- `assignExtraUTSlots` of `utAssignmentUtils.ts` (volunteer-extra pass). -/
def assignExtraUTSlots (week : Schedule) (counts : UTCounts)
    (sortedDispatchers : List ExtendedDispatcher) : Schedule × UTCounts :=
  let remainingSlots := collectEmptyUTSlots week
  if remainingSlots = [] then (week, counts)
  else
    let extraUtDispatchers := sortedDispatchers.filter (fun d => d.wantsExtraUtility)
    if extraUtDispatchers = [] then (week, counts)
    else
      match extraUTLoop remainingSlots extraUtDispatchers
          (remainingSlots.length + 1) week counts 0 with
      | some r => r
      | none => (week, counts)

/-- `assignUTSlots` of `utAssignmentUtils.ts` (the `AssignUT` entry point). -/
def assignUTSlots (week : Schedule) (dispatchers : List ExtendedDispatcher) :
    Schedule :=
  let idByAny := buildIdByAny dispatchers
  let counts0 := countExistingUT week idByAny
  let sorted := utEligibleSorted dispatchers
  let primary := assignPrimaryUTSlots week counts0 sorted
  let missingUT := sorted.filter (fun d => primary.2 d.id = 0)
  let rescued :=
    if missingUT ≠ [] then assignFallbackUTSlots primary.1 primary.2 missingUT
    else primary
  (assignExtraUTSlots rescued.1 rescued.2 sorted).1

/-! ## `weekScheduler.ts`: weekly orchestration -/

/-- `cloneWeeklySchedule` of `weekScheduler.ts`. -/
def cloneWeeklySchedule (schedule : Schedule) : Schedule :=
  fun day => cloneScheduleDay (schedule day)

/-- `processDaySchedule` of `weekScheduler.ts`: solve against the current day
as locked, merge, and fall back when the merged day is empty. -/
def processDaySchedule (day : Day) (dispatchers : List ExtendedDispatcher)
    (currentDaySchedule : ScheduleDay) : ScheduleDay :=
  let solvedDay := generateScheduleForDay day dispatchers (some currentDaySchedule)
  let mergedDay := mergeScheduleDays currentDaySchedule solvedDay
  if hasAnyAssignments mergedDay then mergedDay
  else applyShiftAwareFallback day dispatchers mergedDay

/-- `generateWeeklySchedule` of `weekScheduler.ts` (the `GenerateWeek` entry
point): per-day solve-and-merge, week-wide id normalization, UT balancing. -/
def generateWeeklySchedule (current : Schedule)
    (dispatchers : List ExtendedDispatcher) : Schedule :=
  let newSchedule : Schedule :=
    fun day => processDaySchedule day dispatchers (current day)
  let normalized := normalizeScheduleWeekToIds newSchedule dispatchers
  assignUTSlots normalized dispatchers

/-! ## Heap model of the engine's mutation discipline

The TypeScript engine mutates `ScheduleDay` objects in place but clones every
structure it receives before writing.  To state that the caller's arguments
are never mutated, each pipeline stage is given a heap-level version: a stage
that in the source returns a freshly cloned object becomes an allocation of
its (pure) result, and a stage that writes into an object it created becomes
a write-back to that same reference.  References are allocated sequentially,
so a reference is valid exactly when it is below `Heap.next`. -/

/-- A heap of `ScheduleDay` objects with a sequential allocator. -/
structure Heap where
  cells : Nat → ScheduleDay
  next : Nat

/-- Dereference. -/
def hread (h : Heap) (r : Nat) : ScheduleDay := h.cells r

/-- Allocate a fresh object, returning its reference. -/
def halloc (h : Heap) (d : ScheduleDay) : Nat × Heap :=
  (h.next,
   { cells := fun r => if r = h.next then d else h.cells r, next := h.next + 1 })

/-- Overwrite the object behind an existing reference. -/
def hwrite (h : Heap) (r : Nat) (d : ScheduleDay) : Heap :=
  { cells := fun x => if x = r then d else h.cells x, next := h.next }

/-- Heap-level `generateScheduleForDay`: clone the locked day
(`cloneScheduleDay`), allocate the normalized and sanitized copies
(`normalizeScheduleDayToIds` and `sanitizeLockedAssignments` both return
fresh clones), then run the two assignment passes in place on the sanitized
copy, which is returned. -/
def generateScheduleForDayH (day : Day) (dispatchers : List ExtendedDispatcher)
    (locked : Nat) (h : Heap) : Nat × Heap :=
  let a1 := halloc h (cloneScheduleDay (hread h locked))
  let a2 := halloc a1.2 (normalizeScheduleDayToIds (hread a1.2 a1.1) dispatchers)
  let a3 := halloc a2.2 (sanitizeLockedAssignments day (hread a2.2 a2.1) dispatchers)
  let sorted := prepareDispatchers dispatchers day
  let h4 := hwrite a3.2 a3.1 (processDispatcherAssignments (hread a3.2 a3.1) sorted day)
  let h5 := hwrite h4 a3.1 (processExtraRadioAssignments (hread h4 a3.1) sorted day)
  (a3.1, h5)

/-- Heap-level `applyShiftAwareFallback`: with no available dispatchers the
input reference is returned unchanged; otherwise the pass mutates only the
fresh clone made by `normalizeScheduleDayToIds`. -/
def applyShiftAwareFallbackH (day : Day) (dispatchers : List ExtendedDispatcher)
    (r : Nat) (h : Heap) : Nat × Heap :=
  let availableDispatchers := dispatchers.filter (fun d =>
    if d.excludeFromAutoSchedule then false
    else if isTraineeLike d then false
    else if d.workDays = [] then true
    else if d.workDays.contains day then true
    else (d.shift = some "E" ∨ d.shift = some "F")
      ∧ d.workDays.contains (getPreviousDay day))
  if availableDispatchers = [] then (r, h)
  else halloc h (applyShiftAwareFallback day dispatchers (hread h r))

/-- Heap-level `processDaySchedule`: solve the day, allocate the merged copy
(`mergeScheduleDays` clones its base), optionally fall back. -/
def processDayScheduleH (day : Day) (dispatchers : List ExtendedDispatcher)
    (rCurrent : Nat) (h : Heap) : Nat × Heap :=
  let s := generateScheduleForDayH day dispatchers rCurrent h
  let m := halloc s.2 (mergeScheduleDays (hread s.2 rCurrent) (hread s.2 s.1))
  if hasAnyAssignments (hread m.2 m.1) then m
  else applyShiftAwareFallbackH day dispatchers m.1 m.2

/-- One day of `cloneWeeklySchedule` at heap level: allocate a clone of the
caller's day object and bind the new week's entry to it. -/
def cloneStepH (refs : Day → Nat) (st : (Day → Nat) × Heap) (d : Day) :
    (Day → Nat) × Heap :=
  let a := halloc st.2 (cloneScheduleDay (hread st.2 (refs d)))
  (fun x => if x = d then a.1 else st.1 x, a.2)

/-- One day of the solve loop at heap level: run `processDayScheduleH` against
the caller's day reference and re-bind the entry to the result. -/
def solveStepH (dispatchers : List ExtendedDispatcher) (refs : Day → Nat)
    (st : (Day → Nat) × Heap) (d : Day) : (Day → Nat) × Heap :=
  let a := processDayScheduleH d dispatchers (refs d) st.2
  (fun x => if x = d then a.1 else st.1 x, a.2)

/-- One day of `normalizeScheduleWeekToIds` at heap level: allocate the
normalized copy. -/
def normStepH (dispatchers : List ExtendedDispatcher)
    (st : (Day → Nat) × Heap) (d : Day) : (Day → Nat) × Heap :=
  let a := halloc st.2 (normalizeScheduleDayToIds (hread st.2 (st.1 d)) dispatchers)
  (fun x => if x = d then a.1 else st.1 x, a.2)

/-- Heap-level `generateWeeklySchedule`: clone the current week, replace each
day reference by the day result, allocate the normalized copies, then let the
UT balancer write back into those normalized (fresh) objects. -/
def generateWeeklyScheduleH (dispatchers : List ExtendedDispatcher)
    (refs : Day → Nat) (h : Heap) : (Day → Nat) × Heap :=
  let cloned := days.foldl (cloneStepH refs) (refs, h)
  let solved := days.foldl (solveStepH dispatchers refs) cloned
  let normalized := days.foldl (normStepH dispatchers) solved
  let week : Schedule := fun d => hread normalized.2 (normalized.1 d)
  let final := assignUTSlots week dispatchers
  let h4 := days.foldl (fun hh d => hwrite hh (normalized.1 d) (final d)) normalized.2
  (normalized.1, h4)

/-! ## Concrete input builders (used by witnesses and counterexamples) -/

/-- A schedule day from an explicit cell list (absent cells empty). -/
def mkDay (l : List (TimeSlot × Column × String)) : ScheduleDay :=
  fun s c => (((l.find? (fun e => e.1 = s ∧ e.2.1 = c)).map (fun e => e.2.2)).getD "")

/-- A week from an explicit per-day list (absent days empty). -/
def mkWeek (l : List (Day × ScheduleDay)) : Schedule :=
  fun d => (((l.find? (fun e => e.1 = d)).map (fun e => e.2)).getD createEmptyScheduleDay)

/-- The all-empty week. -/
def emptyWeek : Schedule := mkWeek []

/-! ## Claim C3: overnight spillover -/

/-- The dispatcher of the spec's spillover example: shift F, works Sunday. -/
def shiftFSundayDispatcher : ExtendedDispatcher :=
  { id := "F1", shift := some "F", workDays := [sunday] }

/-- C3, counterexample: the claim makes the shift-F Sunday worker eligible for
Monday `0730-0930` and `0930-1130` (the grid's first four slots), but the code
rejects both (and the claimed "first two / first four slots of the next day"
spillover sets differ from `OVERNIGHT_SLOTS_E` / `OVERNIGHT_SLOTS_F`, which do
not contain the grid's first slot for E nor the third grid slot for F). -/
theorem C3_counterexample :
    (isEligibleOnDayForSlot shiftFSundayDispatcher monday t0730 &&
      isSlotInShift shiftFSundayDispatcher t0730) = false ∧
    (isEligibleOnDayForSlot shiftFSundayDispatcher monday t0930 &&
      isSlotInShift shiftFSundayDispatcher t0930) = false ∧
    isSpilloverSlotForShift (some "F") t0730 = false ∧
    isSpilloverSlotForShift (some "E") t0330 = false := by
  decide

/-- C3, amended: the shift-F Sunday worker is eligible on Monday exactly for
`2330-0130`, `0130-0330`, `0330-0530` and `0530-0730` (the four overnight
spillover slots of shift F, which also lie in F's base slot set), and the
spillover sets are `2330-0130`/`0130-0330` for E and those plus
`0330-0530`/`0530-0730` for F. -/
theorem C3_amended_spillover :
    (∀ slot : TimeSlot,
      (isEligibleOnDayForSlot shiftFSundayDispatcher monday slot &&
        isSlotInShift shiftFSundayDispatcher slot) = true ↔
      slot ∈ [t2330, t0130, t0330, t0530]) ∧
    (∀ slot : TimeSlot,
      isSpilloverSlotForShift (some "E") slot = true ↔ slot ∈ [t2330, t0130]) ∧
    (∀ slot : TimeSlot,
      isSpilloverSlotForShift (some "F") slot = true ↔
      slot ∈ [t2330, t0130, t0330, t0530]) := by
  decide

/-! ## Claim C9: termination of the volunteer-extra UT pass -/

/-- Case split of a single volunteer turn: either nothing happens, or the
cursor advances by one and `progress` is set. -/
theorem extraUTStep_cases (remainingSlots : List (Day × TimeSlot))
    (st : ExtraUTState) (d : ExtendedDispatcher) :
    extraUTStep remainingSlots st d = st ∨
    ((extraUTStep remainingSlots st d).idx = st.idx + 1 ∧
      (extraUTStep remainingSlots st d).progress = true) := by
  unfold extraUTStep
  dsimp only
  split
  · exact Or.inl rfl
  · split
    · exact Or.inl rfl
    · split
      · exact Or.inl rfl
      · split
        · exact Or.inl rfl
        · exact Or.inr ⟨rfl, rfl⟩

/-- A volunteer cycle never decreases the slot cursor, and reports progress
only when the cursor advanced. -/
theorem extraUTCycle_progress (remainingSlots : List (Day × TimeSlot))
    (extraUtDispatchers : List ExtendedDispatcher) (st : ExtraUTState) :
    st.idx ≤ (extraUTCycle remainingSlots extraUtDispatchers st).idx ∧
    ((extraUTCycle remainingSlots extraUtDispatchers st).progress = true →
      st.progress = true ∨
      st.idx < (extraUTCycle remainingSlots extraUtDispatchers st).idx) := by
  induction extraUtDispatchers generalizing st with
  | nil => exact ⟨Nat.le_refl _, fun h => Or.inl h⟩
  | cons d rest ih =>
    have hstep := extraUTStep_cases remainingSlots st d
    have hc : extraUTCycle remainingSlots (d :: rest) st =
        extraUTCycle remainingSlots rest (extraUTStep remainingSlots st d) := rfl
    rcases hstep with heq | ⟨hidx, hprog⟩
    · rw [hc, heq]; exact ih st
    · rw [hc]
      rcases ih (extraUTStep remainingSlots st d) with ⟨hle, hpr⟩
      refine ⟨Nat.le_trans (by omega) hle, fun h => Or.inr ?_⟩
      rcases hpr h with h1 | h1
      · omega
      · omega

/-- The fuelled outer loop returns a result whenever the fuel exceeds the
number of cells left to place. -/
theorem extraUTLoop_isSome (remainingSlots : List (Day × TimeSlot))
    (extraUtDispatchers : List ExtendedDispatcher) :
    ∀ (fuel : Nat) (week : Schedule) (counts : UTCounts) (idx : Nat),
    remainingSlots.length - idx < fuel →
    (extraUTLoop remainingSlots extraUtDispatchers fuel week counts idx).isSome = true := by
  intro fuel
  induction fuel with
  | zero => intro week counts idx h; omega
  | succ fuel ih =>
    intro week counts idx h
    unfold extraUTLoop
    by_cases hlt : idx < remainingSlots.length
    · simp only [if_pos hlt]
      set st := extraUTCycle remainingSlots extraUtDispatchers
        { week := week, counts := counts, idx := idx, progress := false } with hst
      by_cases hp : st.progress = true
      · simp only [hp, if_true]
        apply ih
        rcases (extraUTCycle_progress remainingSlots extraUtDispatchers
          { week := week, counts := counts, idx := idx, progress := false }) with ⟨_, hpr⟩
        rcases hpr hp with h1 | h1
        · simp at h1
        · simp only [← hst] at h1 ⊢
          omega
      · simp [hp]
    · simp [hlt]

/-- C9: the volunteer-extra pass of the UT balancer terminates: with fuel one
more than the number of empty UT cells, the cycle loop of
`assignExtraUTSlots` always reaches one of its two exits (no cells left, or a
full cycle without progress) instead of exhausting the fuel, so `assignUTSlots`
is a total function of its inputs. -/
theorem C9_volunteer_terminates (week : Schedule) (counts : UTCounts)
    (sortedDispatchers : List ExtendedDispatcher) :
    (extraUTLoop (collectEmptyUTSlots week)
      (sortedDispatchers.filter (fun d => d.wantsExtraUtility))
      ((collectEmptyUTSlots week).length + 1) week counts 0).isSome = true := by
  exact extraUTLoop_isSome _ _ _ week counts 0 (by omega)

/-! ## Claim C7: the engine never mutates the caller's structures -/

/-- `h'` extends `h`: no reference valid in `h` is re-bound or overwritten. -/
def heapExtends (h h' : Heap) : Prop :=
  h.next ≤ h'.next ∧ ∀ r, r < h.next → h'.cells r = h.cells r

theorem heapExtends_refl (h : Heap) : heapExtends h h :=
  ⟨Nat.le_refl _, fun _ _ => rfl⟩

theorem heapExtends_trans {h1 h2 h3 : Heap} (a : heapExtends h1 h2)
    (b : heapExtends h2 h3) : heapExtends h1 h3 :=
  ⟨Nat.le_trans a.1 b.1, fun r hr => (b.2 r (Nat.lt_of_lt_of_le hr a.1)).trans (a.2 r hr)⟩

theorem heapExtends_halloc {h h' : Heap} (e : heapExtends h h') (d : ScheduleDay) :
    heapExtends h (halloc h' d).2 := by
  have h1 := e.1
  refine ⟨?_, fun r hr => ?_⟩
  · show h.next ≤ h'.next + 1
    omega
  · show (if r = h'.next then d else h'.cells r) = h.cells r
    rw [if_neg (by omega), e.2 r hr]

theorem halloc_fresh {h h' : Heap} (e : heapExtends h h') (d : ScheduleDay) :
    h.next ≤ (halloc h' d).1 := e.1

theorem heapExtends_hwrite {h h' : Heap} (e : heapExtends h h') {r : Nat}
    (hr : h.next ≤ r) (d : ScheduleDay) : heapExtends h (hwrite h' r d) := by
  refine ⟨e.1, fun x hx => ?_⟩
  show (if x = r then d else h'.cells x) = h.cells x
  rw [if_neg (by omega), e.2 x hx]

/-- The heap-level day scheduler only allocates and writes fresh references,
and returns a fresh one. -/
theorem generateScheduleForDayH_extends (day : Day)
    (dispatchers : List ExtendedDispatcher) (locked : Nat) (h : Heap) :
    heapExtends h (generateScheduleForDayH day dispatchers locked h).2 ∧
    h.next ≤ (generateScheduleForDayH day dispatchers locked h).1 := by
  unfold generateScheduleForDayH
  have e0 := heapExtends_refl h
  have e1 := heapExtends_halloc e0 (cloneScheduleDay (hread h locked))
  refine ⟨heapExtends_hwrite (heapExtends_hwrite (heapExtends_halloc
    (heapExtends_halloc e1 _) _) ?_ _) ?_ _, ?_⟩
  · show h.next ≤ h.next + 2
    omega
  · show h.next ≤ h.next + 2
    omega
  · show h.next ≤ h.next + 2
    omega

/-- The heap-level fallback stage allocates at most one fresh object and
returns either the input reference or a fresh one. -/
theorem applyShiftAwareFallbackH_extends (day : Day)
    (dispatchers : List ExtendedDispatcher) (r : Nat) {h h0 : Heap}
    (e : heapExtends h0 h) (hr : h0.next ≤ r) :
    heapExtends h0 (applyShiftAwareFallbackH day dispatchers r h).2 ∧
    h0.next ≤ (applyShiftAwareFallbackH day dispatchers r h).1 := by
  unfold applyShiftAwareFallbackH
  dsimp only
  split
  · exact ⟨e, hr⟩
  · exact ⟨heapExtends_halloc e _, halloc_fresh e _⟩

/-- The heap-level per-day stage of the week scheduler only touches fresh
references and returns a fresh one. -/
theorem processDayScheduleH_extends (day : Day)
    (dispatchers : List ExtendedDispatcher) (rCurrent : Nat) (h : Heap) :
    heapExtends h (processDayScheduleH day dispatchers rCurrent h).2 ∧
    h.next ≤ (processDayScheduleH day dispatchers rCurrent h).1 := by
  unfold processDayScheduleH
  dsimp only
  have hd := generateScheduleForDayH_extends day dispatchers rCurrent h
  have em := heapExtends_halloc hd.1
    (mergeScheduleDays
      (hread (generateScheduleForDayH day dispatchers rCurrent h).2 rCurrent)
      (hread (generateScheduleForDayH day dispatchers rCurrent h).2
        (generateScheduleForDayH day dispatchers rCurrent h).1))
  have hmfresh : h.next ≤ (halloc (generateScheduleForDayH day dispatchers rCurrent h).2
      (mergeScheduleDays
        (hread (generateScheduleForDayH day dispatchers rCurrent h).2 rCurrent)
        (hread (generateScheduleForDayH day dispatchers rCurrent h).2
          (generateScheduleForDayH day dispatchers rCurrent h).1))).1 :=
    halloc_fresh hd.1 _
  split
  · exact ⟨em, hmfresh⟩
  · exact applyShiftAwareFallbackH_extends day dispatchers _ em hmfresh

/-- Ref-map/heap folds of the week scheduler: if every step extends the heap
and re-binds only its own day to a fresh reference, the whole fold extends the
initial heap, binds every processed day to a fresh reference, and keeps the
other entries. -/
theorem refFold_extends (stp : ((Day → Nat) × Heap) → Day → ((Day → Nat) × Heap))
    (hstep : ∀ st d, heapExtends st.2 (stp st d).2 ∧
      st.2.next ≤ (stp st d).1 d ∧ ∀ x, x ≠ d → (stp st d).1 x = st.1 x) :
    ∀ (l : List Day) (st : (Day → Nat) × Heap),
    heapExtends st.2 (l.foldl stp st).2 ∧
    (∀ x ∈ l, st.2.next ≤ (l.foldl stp st).1 x) ∧
    (∀ x, x ∉ l → (l.foldl stp st).1 x = st.1 x) := by
  intro l
  induction l with
  | nil => exact fun st => ⟨heapExtends_refl _, fun x hx => absurd hx (by simp), fun x _ => rfl⟩
  | cons d rest ih =>
    intro st
    have h1 := hstep st d
    have h2 := ih (stp st d)
    simp only [List.foldl_cons]
    refine ⟨heapExtends_trans h1.1 h2.1, fun x hx => ?_, fun x hx => ?_⟩
    · rcases List.mem_cons.mp hx with hxd | hmem
      · subst hxd
        by_cases hrest : x ∈ rest
        · exact Nat.le_trans h1.1.1 (h2.2.1 x hrest)
        · rw [h2.2.2 x hrest]
          exact h1.2.1
      · exact Nat.le_trans h1.1.1 (h2.2.1 x hmem)
    · have hx1 : x ∉ rest := fun hc => hx (List.mem_cons_of_mem _ hc)
      have hx2 : x ≠ d := fun hc => hx (hc ▸ List.mem_cons_self _ _)
      rw [h2.2.2 x hx1, h1.2.2 x hx2]

/-- Heap-only write-back fold of the UT stage: writing through references that
are fresh relative to `h0` preserves everything `h0` owns. -/
theorem writeFold_extends (h0 : Heap) (f : Day → ScheduleDay) (refs : Day → Nat)
    (hrefs : ∀ d, h0.next ≤ refs d) :
    ∀ (l : List Day) (h : Heap), heapExtends h0 h →
    heapExtends h0 (l.foldl (fun hh d => hwrite hh (refs d) (f d)) h) := by
  intro l
  induction l with
  | nil => exact fun h e => e
  | cons d rest ih =>
    intro h e
    exact ih _ (heapExtends_hwrite e (hrefs d) _)

theorem cloneStepH_spec (refs : Day → Nat) (st : (Day → Nat) × Heap) (d : Day) :
    heapExtends st.2 (cloneStepH refs st d).2 ∧
    st.2.next ≤ (cloneStepH refs st d).1 d ∧
    ∀ x, x ≠ d → (cloneStepH refs st d).1 x = st.1 x := by
  refine ⟨heapExtends_halloc (heapExtends_refl _) _, ?_, fun x hx => ?_⟩
  · show st.2.next ≤ (if d = d then st.2.next else st.1 d)
    simp
  · show (if x = d then st.2.next else st.1 x) = st.1 x
    rw [if_neg hx]

theorem solveStepH_spec (dispatchers : List ExtendedDispatcher) (refs : Day → Nat)
    (st : (Day → Nat) × Heap) (d : Day) :
    heapExtends st.2 (solveStepH dispatchers refs st d).2 ∧
    st.2.next ≤ (solveStepH dispatchers refs st d).1 d ∧
    ∀ x, x ≠ d → (solveStepH dispatchers refs st d).1 x = st.1 x := by
  have hp := processDayScheduleH_extends d dispatchers (refs d) st.2
  refine ⟨hp.1, ?_, fun x hx => ?_⟩
  · show st.2.next ≤ (if d = d then (processDayScheduleH d dispatchers (refs d) st.2).1 else st.1 d)
    simpa using hp.2
  · show (if x = d then (processDayScheduleH d dispatchers (refs d) st.2).1 else st.1 x) = st.1 x
    rw [if_neg hx]

theorem normStepH_spec (dispatchers : List ExtendedDispatcher)
    (st : (Day → Nat) × Heap) (d : Day) :
    heapExtends st.2 (normStepH dispatchers st d).2 ∧
    st.2.next ≤ (normStepH dispatchers st d).1 d ∧
    ∀ x, x ≠ d → (normStepH dispatchers st d).1 x = st.1 x := by
  refine ⟨heapExtends_halloc (heapExtends_refl _) _, ?_, fun x hx => ?_⟩
  · show st.2.next ≤ (if d = d then st.2.next else st.1 d)
    simp
  · show (if x = d then st.2.next else st.1 x) = st.1 x
    rw [if_neg hx]

/-- The heap-level week scheduler extends the caller's heap and returns only
freshly allocated references. -/
theorem generateWeeklyScheduleH_extends (dispatchers : List ExtendedDispatcher)
    (refs : Day → Nat) (h : Heap) :
    heapExtends h (generateWeeklyScheduleH dispatchers refs h).2 ∧
    (∀ d, h.next ≤ (generateWeeklyScheduleH dispatchers refs h).1 d) := by
  unfold generateWeeklyScheduleH
  dsimp only
  have f1 := refFold_extends (cloneStepH refs) (cloneStepH_spec refs) days (refs, h)
  have f2 := refFold_extends (solveStepH dispatchers refs)
    (solveStepH_spec dispatchers refs) days (days.foldl (cloneStepH refs) (refs, h))
  have f3 := refFold_extends (normStepH dispatchers)
    (normStepH_spec dispatchers) days
    (days.foldl (solveStepH dispatchers refs) (days.foldl (cloneStepH refs) (refs, h)))
  have e12 : heapExtends h
      (days.foldl (solveStepH dispatchers refs) (days.foldl (cloneStepH refs) (refs, h))).2 :=
    heapExtends_trans f1.1 f2.1
  have e13 : heapExtends h
      (days.foldl (normStepH dispatchers)
        (days.foldl (solveStepH dispatchers refs) (days.foldl (cloneStepH refs) (refs, h)))).2 :=
    heapExtends_trans e12 f3.1
  have hall : ∀ d : Day, d ∈ days := by decide
  have hfresh : ∀ d : Day, h.next ≤
      (days.foldl (normStepH dispatchers)
        (days.foldl (solveStepH dispatchers refs) (days.foldl (cloneStepH refs) (refs, h)))).1 d :=
    fun d => Nat.le_trans e12.1 (f3.2.1 d (hall d))
  exact ⟨writeFold_extends h _ _ hfresh days _ e13, hfresh⟩

/-- C7: neither `GenerateDay` nor `GenerateWeek` mutates the caller's
structures.  In the heap model, running `generateScheduleForDayH` on a valid
locked-day reference, or `generateWeeklyScheduleH` on valid week references,
leaves every previously valid reference bound to its original `ScheduleDay`
value, and the returned references are freshly allocated. -/
theorem C7_no_mutation (h : Heap) (dispatchers : List ExtendedDispatcher)
    (day : Day) (rLocked : Nat) (refs : Day → Nat)
    (hLocked : rLocked < h.next) (hRefs : ∀ d, refs d < h.next) :
    (∀ r, r < h.next →
      hread (generateScheduleForDayH day dispatchers rLocked h).2 r = hread h r) ∧
    h.next ≤ (generateScheduleForDayH day dispatchers rLocked h).1 ∧
    (∀ r, r < h.next →
      hread (generateWeeklyScheduleH dispatchers refs h).2 r = hread h r) ∧
    (∀ d, h.next ≤ (generateWeeklyScheduleH dispatchers refs h).1 d) := by
  have hd := generateScheduleForDayH_extends day dispatchers rLocked h
  have hw := generateWeeklyScheduleH_extends dispatchers refs h
  exact ⟨fun r hr => hd.1.2 r hr, hd.2, fun r hr => hw.1.2 r hr, hw.2⟩

/-- Witness for `C7_no_mutation` at a one-reference heap holding an empty day. -/
theorem C7_witness :
    (0 < (Heap.mk (fun _ => createEmptyScheduleDay) 1).next ∧
      ∀ d : Day, (fun _ : Day => 0) d < (Heap.mk (fun _ => createEmptyScheduleDay) 1).next) ∧
    ((∀ r, r < (Heap.mk (fun _ => createEmptyScheduleDay) 1).next →
      hread (generateScheduleForDayH monday []
        0 (Heap.mk (fun _ => createEmptyScheduleDay) 1)).2 r =
      hread (Heap.mk (fun _ => createEmptyScheduleDay) 1) r) ∧
    (Heap.mk (fun _ => createEmptyScheduleDay) 1).next ≤
      (generateScheduleForDayH monday [] 0 (Heap.mk (fun _ => createEmptyScheduleDay) 1)).1 ∧
    (∀ r, r < (Heap.mk (fun _ => createEmptyScheduleDay) 1).next →
      hread (generateWeeklyScheduleH [] (fun _ => 0)
        (Heap.mk (fun _ => createEmptyScheduleDay) 1)).2 r =
      hread (Heap.mk (fun _ => createEmptyScheduleDay) 1) r) ∧
    (∀ d, (Heap.mk (fun _ => createEmptyScheduleDay) 1).next ≤
      (generateWeeklyScheduleH [] (fun _ => 0)
        (Heap.mk (fun _ => createEmptyScheduleDay) 1)).1 d)) :=
  ⟨⟨Nat.zero_lt_one, fun _ => Nat.zero_lt_one⟩,
    C7_no_mutation (Heap.mk (fun _ => createEmptyScheduleDay) 1) [] monday 0
      (fun _ => 0) Nat.zero_lt_one (fun _ => Nat.zero_lt_one)⟩

/-! ## Cell-level infrastructure for the day passes -/

theorem setCell_same (d : ScheduleDay) (slot : TimeSlot) (col : Column) (v : String) :
    setCell d slot col v slot col = v := by
  simp [setCell]

theorem setCell_ne (d : ScheduleDay) (slot : TimeSlot) (col : Column) (v : String)
    {s : TimeSlot} {c : Column} (h : ¬(s = slot ∧ c = col)) :
    setCell d slot col v s c = d s c := by
  simp [setCell, h]

/-- Every write of the primary / extra-radio passes targets an empty,
non-disabled, non-UT/RELIEF cell of a slot that does not already hold the
dispatcher. -/
def WriteOk (day : Day) (e : ExtendedDispatcher) (sched : ScheduleDay)
    (s : TimeSlot) (c : Column) : Prop :=
  sched s c = "" ∧ isCellDisabled day s c = false ∧ c ≠ UT ∧ c ≠ RELIEF ∧
  isDispatcherInTimeslot e.id sched s = false

theorem minimumSlotSearch_ok {e : ExtendedDispatcher} {sched : ScheduleDay}
    {day : Day} {s : TimeSlot} {c : Column}
    (h : minimumSlotSearch e sched day = some (s, c)) : WriteOk day e sched s c := by
  unfold minimumSlotSearch at h
  obtain ⟨slot0, hmem0, hpick⟩ := List.exists_of_findSome?_eq_some h
  dsimp only at hpick
  by_cases h1 : isEligibleOnDayForSlot e day slot0 = true
  · rw [if_neg (not_not_intro h1)] at hpick
    by_cases h2 : isDispatcherInTimeslot e.id sched slot0 = true
    · rw [if_pos h2] at hpick
      exact absurd hpick (by simp)
    · rw [if_neg h2] at hpick
      revert hpick
      cases hsort : (columns.filter (fun c =>
          c ≠ UT ∧ c ≠ RELIEF ∧ sched slot0 c = "" ∧
            isCellDisabled day slot0 c = false)).insertionSort
          (fun c1 c2 => colFillCount sched c1 ≤ colFillCount sched c2) with
      | nil => intro hpick; exact absurd hpick (by simp)
      | cons chosen rest =>
        intro hpick
        simp only [Option.some.injEq, Prod.mk.injEq] at hpick
        obtain ⟨h1', h2'⟩ := hpick
        subst h1'
        subst h2'
        have hmem : chosen ∈ columns.filter (fun c =>
            c ≠ UT ∧ c ≠ RELIEF ∧ sched slot0 c = "" ∧
              isCellDisabled day slot0 c = false) :=
          (List.perm_insertionSort _ _).subset (hsort ▸ List.mem_cons_self _ _)
        have hprop := (List.mem_filter.mp hmem).2
        simp only [decide_eq_true_eq] at hprop
        exact ⟨hprop.2.2.1, hprop.2.2.2, hprop.1, hprop.2.1,
          Bool.eq_false_iff.mpr h2⟩
  · rw [if_pos h1] at hpick
    exact absurd hpick (by simp)

theorem generatePreferredAssignments_mem {e : ExtendedDispatcher}
    {sched : ScheduleDay} {a : Assignment}
    (h : a ∈ generatePreferredAssignments e sched) :
    sched a.slot a.col = "" ∧ a.col ≠ UT ∧ a.col ≠ RELIEF := by
  unfold generatePreferredAssignments at h
  have h2 := (List.perm_insertionSort _ _).subset h
  obtain ⟨ts, _, hts⟩ := List.mem_flatMap.mp h2
  by_cases helig : (getEligibleSlots e).contains ts.2
  · rw [if_neg (not_not_intro helig)] at hts
    obtain ⟨cs, hcsmem, hcs⟩ := List.mem_filterMap.mp hts
    by_cases hempty : sched ts.2 cs.2 = ""
    · rw [if_neg (not_not_intro hempty)] at hcs
      simp only [Option.some.injEq] at hcs
      have hcol : cs.2 ∈ (if e.preferredChannels ≠ [] then e.preferredChannels
          else columns).filter (fun col => col ≠ UT ∧ col ≠ RELIEF) := by
        obtain ⟨hlt, heq⟩ := List.mem_enum (show (cs.1, cs.2) ∈ _ from hcsmem)
        rw [heq]
        exact List.getElem_mem _
      have hprop := (List.mem_filter.mp hcol).2
      simp only [decide_eq_true_eq] at hprop
      rw [← hcs]
      exact ⟨hempty, hprop.1, hprop.2⟩
    · rw [if_pos hempty] at hcs
      exact absurd hcs (by simp)
  · rw [if_pos helig] at hts
    exact absurd hts (by simp)

theorem assignMinimumSlot_shape (e : ExtendedDispatcher) (sched : ScheduleDay)
    (day : Day) :
    (assignMinimumSlot e sched day).1 = sched ∨
    ∃ s c, WriteOk day e sched s c ∧
      (assignMinimumSlot e sched day).1 = setCell sched s c e.id := by
  unfold assignMinimumSlot
  cases hm : minimumSlotSearch e sched day with
  | none => exact Or.inl rfl
  | some p =>
    exact Or.inr ⟨p.1, p.2, minimumSlotSearch_ok (by rw [hm]), rfl⟩

theorem preferredScan_ok {e : ExtendedDispatcher} {sched : ScheduleDay}
    {day : Day} {a : Assignment} (h : preferredScan e sched day = some a) :
    WriteOk day e sched a.slot a.col := by
  have hmem := List.mem_of_find?_eq_some h
  have hpred := List.find?_some h
  obtain ⟨hempty, hUT, hRELIEF⟩ := generatePreferredAssignments_mem hmem
  simp only [Bool.and_eq_true, Bool.not_eq_true', decide_eq_false_iff_not] at hpred
  exact ⟨hempty, by simpa using hpred.1.1.2, hUT, hRELIEF, hpred.1.2⟩

theorem assignPreferredSlot_shape (e : ExtendedDispatcher) (sched : ScheduleDay)
    (day : Day) :
    (assignPreferredSlot e sched day).1 = sched ∨
    ∃ s c, WriteOk day e sched s c ∧
      (assignPreferredSlot e sched day).1 = setCell sched s c e.id := by
  unfold assignPreferredSlot
  cases hm : preferredScan e sched day with
  | none => exact Or.inl rfl
  | some a => exact Or.inr ⟨a.slot, a.col, preferredScan_ok hm, rfl⟩

theorem extraPreferredScan_ok {e : ExtendedDispatcher} {sched : ScheduleDay}
    {day : Day} {a : Assignment} (h : extraPreferredScan e sched day = some a) :
    WriteOk day e sched a.slot a.col := by
  have hmem := List.mem_of_find?_eq_some h
  have hpred := List.find?_some h
  have hmem2 := (List.mem_filter.mp hmem).1
  obtain ⟨hempty, hUT, hRELIEF⟩ := generatePreferredAssignments_mem hmem2
  simp only [Bool.and_eq_true, Bool.not_eq_true', decide_eq_true_eq] at hpred
  exact ⟨hempty, by simpa using hpred.2, hUT, hRELIEF, hpred.1.2⟩

theorem assignExtraRadioSlot_shape (e : ExtendedDispatcher) (sched : ScheduleDay)
    (day : Day) :
    (assignExtraRadioSlot e sched day).1 = sched ∨
    ∃ s c, WriteOk day e sched s c ∧
      (assignExtraRadioSlot e sched day).1 = setCell sched s c e.id := by
  unfold assignExtraRadioSlot
  dsimp only
  cases hp : (if hasPreferences e = true then extraPreferredScan e sched day else none) with
  | some a => exact Or.inr ⟨a.slot, a.col, extraPreferredScan_ok (by
      by_cases hpref : hasPreferences e = true
      · rw [if_pos hpref] at hp; exact hp
      · rw [if_neg hpref] at hp; exact absurd hp (by simp)), rfl⟩
  | none =>
    cases hm : minimumSlotSearch e sched day with
    | none => exact Or.inl rfl
    | some p => exact Or.inr ⟨p.1, p.2, minimumSlotSearch_ok (by rw [hm]), rfl⟩

theorem processDispatcherAssignment_shape (e : ExtendedDispatcher)
    (sched : ScheduleDay) (day : Day) :
    (processDispatcherAssignment e sched day).1 = sched ∨
    ∃ s c, WriteOk day e sched s c ∧
      (processDispatcherAssignment e sched day).1 = setCell sched s c e.id := by
  unfold processDispatcherAssignment
  by_cases hpref : hasPreferences e = true
  · rw [if_neg (not_not_intro hpref)]
    dsimp only
    by_cases hsucc : (assignPreferredSlot e sched day).2.isSome
    · rw [if_pos hsucc]
      exact assignPreferredSlot_shape e sched day
    · rw [if_neg hsucc]
      have hfail : (assignPreferredSlot e sched day).1 = sched := by
        unfold assignPreferredSlot at hsucc ⊢
        cases hm : preferredScan e sched day with
        | none => rfl
        | some a => rw [hm] at hsucc; exact absurd (by simp) hsucc
      rw [hfail]
      exact assignMinimumSlot_shape e sched day
  · rw [if_pos hpref]
    exact assignMinimumSlot_shape e sched day

/-- The primary pass preserves any cell property that is stable under
guarded writes by the processed dispatchers. -/
theorem processDispatcherAssignments_preserve (P : ScheduleDay → Prop)
    (day : Day) (dlist : List ExtendedDispatcher)
    (HP : ∀ sched e s c, e ∈ dlist → WriteOk day e sched s c → P sched →
      P (setCell sched s c e.id)) :
    ∀ sched, P sched → P (processDispatcherAssignments sched dlist day) := by
  unfold processDispatcherAssignments
  induction dlist with
  | nil => exact fun sched h => h
  | cons e rest ih =>
    intro sched h
    simp only [List.foldl_cons]
    have HP' : ∀ sched e' s c, e' ∈ rest → WriteOk day e' sched s c → P sched →
        P (setCell sched s c e'.id) :=
      fun sched e' s c hm => HP sched e' s c (List.mem_cons_of_mem _ hm)
    refine ih HP' _ ?_
    rcases processDispatcherAssignment_shape e sched day with heq | ⟨s, c, hok, heq⟩
    · rw [heq]; exact h
    · rw [heq]; exact HP sched e s c (List.mem_cons_self _ _) hok h

/-- The extra-radio pass preserves any cell property that is stable under
guarded writes by the processed dispatchers. -/
theorem processExtraRadioAssignments_preserve (P : ScheduleDay → Prop)
    (day : Day) (dlist : List ExtendedDispatcher)
    (HP : ∀ sched e s c, e ∈ dlist → WriteOk day e sched s c → P sched →
      P (setCell sched s c e.id)) :
    ∀ sched, P sched → P (processExtraRadioAssignments sched dlist day) := by
  unfold processExtraRadioAssignments
  have hsub : ∀ e, e ∈ dlist.filter (fun d => !d.minimumRadioOnly) → e ∈ dlist :=
    fun e he => (List.mem_filter.mp he).1
  generalize dlist.filter (fun d => !d.minimumRadioOnly) = l at hsub
  induction l with
  | nil => exact fun sched h => h
  | cons e rest ih =>
    intro sched h
    simp only [List.foldl_cons]
    refine ih (fun e' he' => hsub e' (List.mem_cons_of_mem _ he')) _ ?_
    rcases assignExtraRadioSlot_shape e sched day with heq | ⟨s, c, hok, heq⟩
    · rw [heq]; exact h
    · rw [heq]
      exact HP sched e s c (hsub e (List.mem_cons_self _ _)) hok h

/-! ## Sanitation-pass infrastructure -/

/-- A sanitation step either keeps the schedule or clears its own cell. -/
theorem sanitizeCell_shape (day : Day) (disp : List ExtendedDispatcher)
    (slot : TimeSlot) (st : ScheduleDay × List String) (col : Column) :
    (sanitizeCell day disp slot st col).1 = st.1 ∨
    (sanitizeCell day disp slot st col).1 = setCell st.1 slot col "" := by
  unfold sanitizeCell
  dsimp only
  split
  · exact Or.inl rfl
  · split
    · exact Or.inr rfl
    · split
      · exact Or.inr rfl
      · split
        · exact Or.inl rfl
        · exact Or.inr rfl

/-- A sanitation step touches no cell but its own. -/
theorem sanitizeCell_other (day : Day) (disp : List ExtendedDispatcher)
    (slot : TimeSlot) (st : ScheduleDay × List String) (col : Column)
    {s : TimeSlot} {c : Column} (h : ¬(s = slot ∧ c = col)) :
    (sanitizeCell day disp slot st col).1 s c = st.1 s c := by
  rcases sanitizeCell_shape day disp slot st col with heq | heq
  · rw [heq]
  · rw [heq, setCell_ne _ _ _ _ h]

/-- Over a column fold of the sanitation pass, every cell either keeps its
value or is cleared. -/
theorem sanitizeFold_cell_options (day : Day) (disp : List ExtendedDispatcher)
    (slot : TimeSlot) (l : List Column) :
    ∀ (st : ScheduleDay × List String) (s : TimeSlot) (c : Column),
    (l.foldl (sanitizeCell day disp slot) st).1 s c = st.1 s c ∨
    (l.foldl (sanitizeCell day disp slot) st).1 s c = "" := by
  induction l with
  | nil => exact fun st s c => Or.inl rfl
  | cons col rest ih =>
    intro st s c
    simp only [List.foldl_cons]
    rcases ih (sanitizeCell day disp slot st col) s c with h | h
    · rw [h]
      rcases sanitizeCell_shape day disp slot st col with h2 | h2
      · rw [h2]; exact Or.inl rfl
      · rw [h2]
        by_cases hsc : s = slot ∧ c = col
        · rw [hsc.1, hsc.2, setCell_same]; exact Or.inr rfl
        · rw [setCell_ne _ _ _ _ hsc]; exact Or.inl rfl
    · exact Or.inr h

/-- A sanitation step at its own cell: the cell is cleared, or it is kept
with its incoming non-empty value, a non-disabled position and at least one
resolvable participant. -/
theorem sanitizeCell_self (day : Day) (disp : List ExtendedDispatcher)
    (slot : TimeSlot) (st : ScheduleDay × List String) (col : Column) :
    (sanitizeCell day disp slot st col).1 slot col = "" ∨
    ((sanitizeCell day disp slot st col).1 slot col = st.1 slot col ∧
      st.1 slot col ≠ "" ∧ isCellDisabled day slot col = false ∧
      resolveParticipants (st.1 slot col) disp ≠ []) := by
  unfold sanitizeCell
  dsimp only
  by_cases hval : st.1 slot col = ""
  · rw [if_pos hval]
    exact Or.inl hval
  · rw [if_neg hval]
    by_cases hdis : isCellDisabled day slot col = true
    · rw [if_pos hdis]
      exact Or.inl (setCell_same _ _ _ _)
    · rw [if_neg hdis]
      cases hres : resolveParticipants (st.1 slot col) disp with
      | nil => exact Or.inl (setCell_same _ _ _ _)
      | cons trainer rest =>
        dsimp only
        split
        · exact Or.inr ⟨rfl, hval, Bool.eq_false_iff.mpr hdis, by simp⟩
        · exact Or.inl (setCell_same _ _ _ _)

/-- After its own step of the sanitation fold, a non-empty cell is
non-disabled, resolves at least one participant, and keeps its incoming
value. -/
theorem sanitizeFold_cell_sound (day : Day) (disp : List ExtendedDispatcher)
    (slot : TimeSlot) (l : List Column) :
    ∀ (st : ScheduleDay × List String) (c : Column), c ∈ l →
    (l.foldl (sanitizeCell day disp slot) st).1 slot c = "" ∨
    ((l.foldl (sanitizeCell day disp slot) st).1 slot c = st.1 slot c ∧
      isCellDisabled day slot c = false ∧
      resolveParticipants (st.1 slot c) disp ≠ []) := by
  induction l with
  | nil => intro st c hc; exact absurd hc (by simp)
  | cons col rest ih =>
    intro st c hc
    simp only [List.foldl_cons]
    by_cases hcr : c ∈ rest
    · rcases ih (sanitizeCell day disp slot st col) c hcr with h | ⟨h1, h2, h3⟩
      · exact Or.inl h
      · by_cases hceq : c = col
        · subst hceq
          rcases sanitizeCell_self day disp slot st c with hs | ⟨hs1, _, _, _⟩
          · rw [hs] at h1
            exact Or.inl h1
          · rw [hs1] at h1 h3
            exact Or.inr ⟨h1, h2, h3⟩
        · have hoth : (sanitizeCell day disp slot st col).1 slot c = st.1 slot c :=
            sanitizeCell_other day disp slot st col (fun hh => hceq hh.2)
          rw [hoth] at h1 h3
          exact Or.inr ⟨h1, h2, h3⟩
    · have hceq : c = col := by
        rcases List.mem_cons.mp hc with h | h
        · exact h
        · exact absurd h hcr
      subst hceq
      rcases sanitizeFold_cell_options day disp slot rest
        (sanitizeCell day disp slot st c) slot c with hkeep | hclear
      · rw [hkeep]
        rcases sanitizeCell_self day disp slot st c with hs | ⟨hs1, _, hs3, hs4⟩
        · exact Or.inl hs
        · exact Or.inr ⟨hs1, hs3, hs4⟩
      · exact Or.inl hclear

/-- The column fold of one sanitation slot leaves every other row unchanged. -/
theorem sanitizeFold_other_row (day : Day) (disp : List ExtendedDispatcher)
    (slot : TimeSlot) (l : List Column) :
    ∀ (st : ScheduleDay × List String) (s : TimeSlot) (c : Column), s ≠ slot →
    (l.foldl (sanitizeCell day disp slot) st).1 s c = st.1 s c := by
  induction l with
  | nil => exact fun st s c _ => rfl
  | cons col rest ih =>
    intro st s c hs
    simp only [List.foldl_cons]
    rw [ih _ s c hs, sanitizeCell_other day disp slot st col (fun hh => hs hh.1)]

/-- The slot fold of the sanitation pass leaves rows of unprocessed slots
unchanged. -/
theorem sanitizeSlotFold_other (day : Day) (disp : List ExtendedDispatcher)
    (slot : TimeSlot) (col : Column) :
    ∀ (sl : List TimeSlot) (sched0 : ScheduleDay), slot ∉ sl →
    (sl.foldl (fun sched sl' =>
      (columns.foldl (sanitizeCell day disp sl') (sched, ([] : List String))).1)
      sched0) slot col = sched0 slot col := by
  intro sl
  induction sl with
  | nil => exact fun sched0 _ => rfl
  | cons sl0 rest ih =>
    intro sched0 hmem
    simp only [List.foldl_cons]
    have h1 : slot ∉ rest := fun hc => hmem (List.mem_cons_of_mem _ hc)
    have h2 : slot ≠ sl0 := fun hc => hmem (hc ▸ List.mem_cons_self _ _)
    rw [ih _ h1, sanitizeFold_other_row day disp sl0 columns _ slot col h2]

/-- Core characterization of the slot fold of the sanitation pass at a
processed slot. -/
theorem sanitizeSlotFold_sound (day : Day) (disp : List ExtendedDispatcher)
    (slot : TimeSlot) (col : Column) (hmemC : col ∈ columns) :
    ∀ (sl : List TimeSlot) (sched0 : ScheduleDay), slot ∈ sl →
    (sl.foldl (fun sched sl' =>
      (columns.foldl (sanitizeCell day disp sl') (sched, ([] : List String))).1)
      sched0) slot col = "" ∨
    ((sl.foldl (fun sched sl' =>
      (columns.foldl (sanitizeCell day disp sl') (sched, ([] : List String))).1)
      sched0) slot col = sched0 slot col ∧
      isCellDisabled day slot col = false ∧
      resolveParticipants (sched0 slot col) disp ≠ []) := by
  intro sl
  induction sl with
  | nil => intro sched0 h; exact absurd h (by simp)
  | cons sl0 rest ih =>
    intro sched0 hmem
    simp only [List.foldl_cons]
    by_cases hrest : slot ∈ rest
    · rcases ih ((columns.foldl (sanitizeCell day disp sl0)
          (sched0, ([] : List String))).1) hrest with hB | ⟨hC1, hC2, hC3⟩
      · exact Or.inl hB
      · by_cases hseq : slot = sl0
        · subst hseq
          rcases sanitizeFold_cell_sound day disp slot columns
            (sched0, ([] : List String)) col hmemC with h | ⟨h1, h2, h3⟩
          · exact Or.inl (hC1.trans h)
          · rw [h1] at hC1 hC3
            exact Or.inr ⟨hC1, hC2, hC3⟩
        · have hrow := sanitizeFold_other_row day disp sl0 columns
            (sched0, ([] : List String)) slot col hseq
          rw [hrow] at hC1 hC3
          exact Or.inr ⟨hC1, hC2, hC3⟩
    · have hseq : slot = sl0 := by
        rcases List.mem_cons.mp hmem with h | h
        · exact h
        · exact absurd h hrest
      subst hseq
      have hfinal := sanitizeSlotFold_other day disp slot col rest
        ((columns.foldl (sanitizeCell day disp slot)
          (sched0, ([] : List String))).1) hrest
      rcases sanitizeFold_cell_sound day disp slot columns
        (sched0, ([] : List String)) col hmemC with h | ⟨h1, h2, h3⟩
      · exact Or.inl (hfinal.trans h)
      · exact Or.inr ⟨hfinal.trans h1, h2, h3⟩

/-- `sanitizeLockedAssignments` clears or keeps each cell; a kept non-empty
cell sits on a non-disabled position and resolves a participant. -/
theorem sanitizeLockedAssignments_sound (day : Day) (sched : ScheduleDay)
    (disp : List ExtendedDispatcher) (slot : TimeSlot) (col : Column) :
    sanitizeLockedAssignments day sched disp slot col = "" ∨
    (sanitizeLockedAssignments day sched disp slot col = sched slot col ∧
      isCellDisabled day slot col = false ∧
      resolveParticipants (sched slot col) disp ≠ []) := by
  have hmemS : slot ∈ timeSlots := by cases slot <;> decide
  have hmemC : col ∈ columns := by cases col <;> decide
  exact sanitizeSlotFold_sound day disp slot col hmemC timeSlots
    (cloneScheduleDay sched) hmemS

/-! ## Claim C8: unresolvable cells are cleared, not rejected -/

theorem prepareDispatchers_subset {dispatchers : List ExtendedDispatcher}
    {day : Day} {e : ExtendedDispatcher}
    (h : e ∈ prepareDispatchers dispatchers day) : e ∈ dispatchers := by
  unfold prepareDispatchers at h
  exact (List.mem_filter.mp ((List.perm_insertionSort _ _).subset h)).1

/-- A dispatcher's own id always resolves (to some roster entry). -/
theorem resolveParticipants_id {dispatchers : List ExtendedDispatcher}
    {e : ExtendedDispatcher} (he : e ∈ dispatchers)
    (hslash : jsHasSlash e.id = false) (htrim : jsTrim e.id = e.id)
    (hne : e.id ≠ "") : resolveParticipants e.id dispatchers ≠ [] := by
  unfold resolveParticipants
  rw [if_neg hne, if_neg (by simp [hslash]), htrim]
  have hfind : (findDispatcherByIdentifier e.id dispatchers).isSome := by
    unfold findDispatcherByIdentifier
    rw [if_neg (by simp [hslash])]
    exact List.find?_isSome.mpr ⟨e, he, by simp⟩
  cases hf : findDispatcherByIdentifier e.id dispatchers with
  | none => rw [hf] at hfind; exact absurd hfind (by simp)
  | some d => simp [List.filterMap, hf]

/-- Cell property behind C8: every non-empty cell resolves at least one
participant. -/
def CellsResolvable (dispatchers : List ExtendedDispatcher) (sched : ScheduleDay) :
    Prop :=
  ∀ slot col, sched slot col ≠ "" →
    resolveParticipants (sched slot col) dispatchers ≠ []

theorem CellsResolvable_write {dispatchers : List ExtendedDispatcher}
    {sched : ScheduleDay} {e : ExtendedDispatcher} {s : TimeSlot}
    {c : Column} (he : e ∈ dispatchers)
    (hslash : jsHasSlash e.id = false) (htrim : jsTrim e.id = e.id) :
    CellsResolvable dispatchers sched →
    CellsResolvable dispatchers (setCell sched s c e.id) := by
  intro hP slot col hne
  by_cases hsc : slot = s ∧ col = c
  · rw [hsc.1, hsc.2, setCell_same] at hne ⊢
    exact resolveParticipants_id he hslash htrim hne
  · rw [setCell_ne _ _ _ _ hsc] at hne ⊢
    exact hP slot col hne

/-- The three stages of `generateScheduleForDay` after seeding, over an
arbitrary seed schedule, leave every non-empty cell resolvable. -/
theorem dayPasses_resolvable (day : Day) (dispatchers : List ExtendedDispatcher)
    (sched0 : ScheduleDay)
    (hTok : ∀ d ∈ dispatchers, jsHasSlash d.id = false ∧ jsTrim d.id = d.id) :
    CellsResolvable dispatchers
      (processExtraRadioAssignments
        (processDispatcherAssignments
          (sanitizeLockedAssignments day
            (normalizeScheduleDayToIds sched0 dispatchers) dispatchers)
          (prepareDispatchers dispatchers day) day)
        (prepareDispatchers dispatchers day) day) := by
  have hsan : CellsResolvable dispatchers
      (sanitizeLockedAssignments day
        (normalizeScheduleDayToIds sched0 dispatchers) dispatchers) := by
    intro slot col hne
    have hx := sanitizeLockedAssignments_sound day
      (normalizeScheduleDayToIds sched0 dispatchers) dispatchers slot col
    rcases hx with h | ⟨h1, _, h3⟩
    · exact absurd h hne
    · rw [h1]; exact h3
  have HP : ∀ sched e s c, e ∈ prepareDispatchers dispatchers day →
      WriteOk day e sched s c → CellsResolvable dispatchers sched →
      CellsResolvable dispatchers (setCell sched s c e.id) := by
    intro sched e s c he _ hP
    have hmem := prepareDispatchers_subset he
    exact CellsResolvable_write hmem (hTok e hmem).1 (hTok e hmem).2 hP
  exact processExtraRadioAssignments_preserve (CellsResolvable dispatchers)
    day (prepareDispatchers dispatchers day) HP _
    (processDispatcherAssignments_preserve (CellsResolvable dispatchers)
      day (prepareDispatchers dispatchers day) HP _ hsan)

/-- C8, amended: `GenerateDay` is total (it always returns a `ScheduleDay`,
never an error), and after it every non-empty cell resolves at least one of
its participant halves to a known dispatcher — a value NONE of whose halves
matches a dispatcher id or name is cleared as corrupt.  (A composite with one
resolvable half is kept, so a cell may still contain an unresolvable half;
see the counterexample.)  Dispatcher ids are assumed to be slash-free trimmed
tokens per the data model. -/
theorem C8_amended_unresolvable_cleared (day : Day)
    (dispatchers : List ExtendedDispatcher) (locked : Option ScheduleDay)
    (hTok : ∀ d ∈ dispatchers, jsHasSlash d.id = false ∧ jsTrim d.id = d.id) :
    ∀ slot col, generateScheduleForDay day dispatchers locked slot col ≠ "" →
      resolveParticipants (generateScheduleForDay day dispatchers locked slot col)
        dispatchers ≠ [] := by
  cases locked with
  | none => exact dayPasses_resolvable day dispatchers createEmptyScheduleDay hTok
  | some l => exact dayPasses_resolvable day dispatchers (cloneScheduleDay l) hTok

/-- C8, counterexample: in a locked day holding the composite value "A/ZZZ"
whose second half matches no dispatcher, `GenerateDay` keeps the cell intact
("A" resolves, so the value is not treated as corrupt), so a non-empty cell
containing an unresolvable identifier survives, contradicting the claim that
such cells are cleared. -/
theorem C8_counterexample :
    generateScheduleForDay monday
      [{ id := "A" }] (some (mkDay [(t0330, SW, "A/ZZZ")])) t0330 SW = "A/ZZZ" ∧
    findDispatcherByIdentifier "ZZZ" [{ id := "A" }] = none := by
  constructor
  · decide
  · decide

/-- Witness for `C8_amended_unresolvable_cleared` on a concrete roster and
locked day. -/
theorem C8_witness :
    (∀ d ∈ [({ id := "A" } : ExtendedDispatcher)],
      jsHasSlash d.id = false ∧ jsTrim d.id = d.id) ∧
    (∀ slot col,
      generateScheduleForDay monday [({ id := "A" } : ExtendedDispatcher)]
        (some (mkDay [(t0330, SW, "ZZZ")])) slot col ≠ "" →
      resolveParticipants
        (generateScheduleForDay monday [({ id := "A" } : ExtendedDispatcher)]
          (some (mkDay [(t0330, SW, "ZZZ")])) slot col)
        [({ id := "A" } : ExtendedDispatcher)] ≠ []) :=
  ⟨by decide, C8_amended_unresolvable_cleared monday
    [({ id := "A" } : ExtendedDispatcher)]
    (some (mkDay [(t0330, SW, "ZZZ")])) (by decide)⟩

/-! ## UT-balancer write discipline (used by C2, C5, C10, C4) -/

theorem setWeekCell_same (w : Schedule) (day : Day) (slot : TimeSlot)
    (col : Column) (v : String) : setWeekCell w day slot col v day slot col = v := by
  simp [setWeekCell, setCell]

theorem setWeekCell_ne (w : Schedule) (day : Day) (slot : TimeSlot) (col : Column)
    (v : String) {d' : Day} {s' : TimeSlot} {c' : Column}
    (h : ¬(d' = day ∧ s' = slot ∧ c' = col)) :
    setWeekCell w day slot col v d' s' c' = w d' s' c' := by
  unfold setWeekCell
  by_cases hd : d' = day
  · subst hd
    rw [if_pos rfl]
    exact setCell_ne _ _ _ _ (fun hh => h ⟨rfl, hh⟩)
  · rw [if_neg hd]

theorem jsFindIndex_spec {p : α → Bool} {l : List α} {i : Nat} (dflt : α)
    (h : jsFindIndex p l = some i) :
    i < l.length ∧ p (l.getD i dflt) = true := by
  induction l generalizing i with
  | nil => exact absurd h (by simp [jsFindIndex])
  | cons x xs ih =>
    unfold jsFindIndex at h
    by_cases hp : p x = true
    · rw [if_pos hp] at h
      simp only [Option.some.injEq] at h
      subst h
      exact ⟨by simp, by simpa using hp⟩
    · rw [if_neg hp] at h
      cases hrec : jsFindIndex p xs with
      | none => rw [hrec] at h; exact absurd h (by simp)
      | some j =>
        rw [hrec] at h
        simp only [Option.map_some', Option.some.injEq] at h
        subst h
        rcases ih hrec with ⟨h1, h2⟩
        exact ⟨by simpa using h1, by simpa using h2⟩

/-- First collected-cell property: every entry of `collectEmptyUTSlots` is an
empty UT cell of its week. -/
theorem collectEmptyUTSlots_empty {week : Schedule} {p : Day × TimeSlot}
    (h : p ∈ collectEmptyUTSlots week) : week p.1 p.2 UT = "" := by
  unfold collectEmptyUTSlots at h
  obtain ⟨day, _, hday⟩ := List.mem_flatMap.mp h
  obtain ⟨slot, _, hslot⟩ := List.mem_filterMap.mp hday
  by_cases he : week day slot UT = ""
  · rw [if_pos he] at hslot
    simp only [Option.some.injEq] at hslot
    rw [← hslot]
    exact he
  · rw [if_neg he] at hslot
    exact absurd hslot (by simp)

theorem collectEmptyUTSlots_nodup (week : Schedule) :
    (collectEmptyUTSlots week).Nodup := by
  unfold collectEmptyUTSlots
  rw [List.nodup_flatMap]
  constructor
  · intro day _
    refine List.Nodup.filterMap ?_ (by decide)
    intro a a' b hb hb'
    by_cases h1 : week day a UT = ""
    · rw [if_pos h1] at hb
      by_cases h2 : week day a' UT = ""
      · rw [if_pos h2] at hb'
        simp only [Option.mem_def, Option.some.injEq] at hb hb'
        rw [← hb'] at hb
        exact (Prod.mk.injEq _ _ _ _ ▸ hb).2
      · rw [if_neg h2] at hb'
        exact absurd hb' (by simp)
    · rw [if_neg h1] at hb
      exact absurd hb (by simp)
  · -- distinct days give disjoint slot lists
    have hdays : (days : List Day).Nodup := by decide
    refine List.Pairwise.imp ?_ (List.Pairwise.and_mem.mp (hdays.imp (fun h => h)))
    intro d1 d2 hne p hp1 hp2
    obtain ⟨s1, _, hs1⟩ := List.mem_filterMap.mp hp1
    obtain ⟨s2, _, hs2⟩ := List.mem_filterMap.mp hp2
    have h1 : p.1 = d1 := by
      by_cases he : week d1 s1 UT = ""
      · rw [if_pos he] at hs1
        simp only [Option.mem_def, Option.some.injEq] at hs1
        rw [← hs1]
      · rw [if_neg he] at hs1
        exact absurd hs1 (by simp)
    have h2 : p.1 = d2 := by
      by_cases he : week d2 s2 UT = ""
      · rw [if_pos he] at hs2
        simp only [Option.mem_def, Option.some.injEq] at hs2
        rw [← hs2]
      · rw [if_neg he] at hs2
        exact absurd hs2 (by simp)
    exact hne.2.2 (h1 ▸ h2)

/-- Slot-side condition of a UT write: whenever the dispatcher's shift has a
base slot set, the written slot lies in it. -/
def shiftCondOk (d : ExtendedDispatcher) (slot : TimeSlot) : Prop :=
  ∀ s sl, d.shift = some s → SHIFT_SLOTS s = some sl → slot ∈ sl

/-- Write discipline of the UT balancer relative to the input week: a cell
differing from the input is a UT cell that was empty, now holding the id of a
UT-eligible dispatcher on one of their literal work days, within their
shift's base slot set. -/
def UTWritesInv (E : List ExtendedDispatcher) (w0 w : Schedule) : Prop :=
  ∀ day slot col, w day slot col ≠ w0 day slot col →
    col = UT ∧ w0 day slot UT = "" ∧
    ∃ d ∈ E, w day slot col = d.id ∧ day ∈ d.workDays ∧ shiftCondOk d slot

theorem UTWritesInv_refl (E : List ExtendedDispatcher) (w0 : Schedule) :
    UTWritesInv E w0 w0 :=
  fun _ _ _ hne => absurd rfl hne

theorem UTWritesInv_write {E : List ExtendedDispatcher} {w0 w : Schedule}
    (inv : UTWritesInv E w0 w) {d : ExtendedDispatcher} {day0 : Day}
    {slot0 : TimeSlot} (hd : d ∈ E) (hday : day0 ∈ d.workDays)
    (hshift : shiftCondOk d slot0) (hempty : w day0 slot0 UT = "") :
    UTWritesInv E w0 (setWeekCell w day0 slot0 UT d.id) := by
  intro day slot col hne
  by_cases htgt : day = day0 ∧ slot = slot0 ∧ col = UT
  · obtain ⟨rfl, rfl, rfl⟩ := htgt
    have hv : setWeekCell w day slot UT d.id day slot UT = d.id :=
      setWeekCell_same _ _ _ _ _
    have h0 : w0 day slot UT = "" := by
      by_cases hc : w day slot UT = w0 day slot UT
      · rw [← hc]; exact hempty
      · exact (inv day slot UT hc).2.1
    exact ⟨rfl, h0, d, hd, hv, hday, hshift⟩
  · rw [setWeekCell_ne _ _ _ _ _ htgt] at hne ⊢
    exact inv day slot col hne

/-- Slot membership in `getEligibleSlots` gives the base-slot-set condition. -/
theorem getEligibleSlots_shiftCond {d : ExtendedDispatcher} {slot : TimeSlot}
    (h : slot ∈ getEligibleSlots d) : shiftCondOk d slot := by
  intro s sl hs hsl
  unfold getEligibleSlots at h
  rw [hs] at h
  dsimp only at h
  rw [hsl] at h
  simpa using h

theorem fallbackShiftOk_shiftCond {d : ExtendedDispatcher} {slot : TimeSlot}
    (h : fallbackShiftOk d slot = true) : shiftCondOk d slot := by
  intro s sl hs hsl
  by_cases hse : s = ""
  · subst hse
    have hnone : SHIFT_SLOTS "" = none := by decide
    rw [hnone] at hsl
    exact absurd hsl (by simp)
  · unfold fallbackShiftOk at h
    rw [hs] at h
    dsimp only at h
    rw [if_neg hse, hsl] at h
    simpa using h

theorem extraShiftOk_shiftCond {d : ExtendedDispatcher} {slot : TimeSlot}
    (h : extraShiftOk d slot = true) : shiftCondOk d slot := by
  intro s sl hs hsl
  by_cases hse : s = ""
  · subst hse
    have hnone : SHIFT_SLOTS "" = none := by decide
    rw [hnone] at hsl
    exact absurd hsl (by simp)
  · unfold extraShiftOk at h
    rw [hs] at h
    dsimp only at h
    rw [if_neg hse, hsl] at h
    simpa using h

/-- Content of a successful primary-pass scan. -/
theorem primaryUTScan_ok {d : ExtendedDispatcher} {w : Schedule}
    {day : Day} {slot : TimeSlot} (h : primaryUTScan d w = some (day, slot)) :
    day ∈ d.workDays ∧ shiftCondOk d slot ∧ w day slot UT = "" ∧
    isDispatcherInTimeslot d.id (w day) slot = false := by
  have hmem := List.mem_of_find?_eq_some h
  have hpred := List.find?_some h
  obtain ⟨day', hday', hmem2⟩ := List.mem_flatMap.mp hmem
  obtain ⟨slot', hslot', heq⟩ := List.mem_map.mp hmem2
  have h1 : day' = day ∧ slot' = slot := by
    constructor
    · exact (Prod.mk.injEq _ _ _ _ ▸ heq).1
    · exact (Prod.mk.injEq _ _ _ _ ▸ heq).2
  obtain ⟨rfl, rfl⟩ := h1
  simp only [Bool.and_eq_true, Bool.not_eq_true', decide_eq_true_eq] at hpred
  exact ⟨hday', getEligibleSlots_shiftCond hslot', hpred.1, hpred.2⟩

/-- The primary pass respects the UT write discipline. -/
theorem assignPrimaryUTSlots_inv {E : List ExtendedDispatcher} {w0 : Schedule}
    (sorted : List ExtendedDispatcher) (hsub : ∀ d ∈ sorted, d ∈ E) :
    ∀ (w : Schedule) (counts : UTCounts), UTWritesInv E w0 w →
    UTWritesInv E w0 (assignPrimaryUTSlots w counts sorted).1 := by
  unfold assignPrimaryUTSlots
  induction sorted with
  | nil => exact fun w counts inv => inv
  | cons d rest ih =>
    intro w counts inv
    simp only [List.foldl_cons]
    have hsub' : ∀ d' ∈ rest, d' ∈ E := fun d' h' => hsub d' (List.mem_cons_of_mem _ h')
    by_cases hz : counts d.id = 0
    · rw [if_pos hz]
      cases hscan : primaryUTScan d w with
      | none => exact ih hsub' w counts inv
      | some p =>
        obtain ⟨day1, slot1⟩ := p
        obtain ⟨hday, hshift, hempty, _⟩ := primaryUTScan_ok hscan
        exact ih hsub' _ _
          (UTWritesInv_write inv (hsub d (List.mem_cons_self _ _)) hday hshift hempty)
    · rw [if_neg hz]
      exact ih hsub' w counts inv

theorem utEligibleSorted_mem {dispatchers : List ExtendedDispatcher}
    {d : ExtendedDispatcher} (h : d ∈ utEligibleSorted dispatchers) :
    d ∈ dispatchers ∧ d.workDays ≠ [] ∧ d.excludeFromAutoSchedule = false ∧
    isTraineeLike d = false := by
  unfold utEligibleSorted at h
  have h2 := List.mem_filter.mp ((List.perm_insertionSort _ _).subset h)
  have h3 := h2.2
  simp only [decide_eq_true_eq, Bool.not_eq_true] at h3
  exact ⟨h2.1, h3.1, h3.2.1, h3.2.2⟩

theorem fallbackUTCellOk_content {d : ExtendedDispatcher} {w : Schedule}
    {p : Day × TimeSlot} (hok : fallbackUTCellOk d w p = true)
    (hwn : d.workDays ≠ []) : p.1 ∈ d.workDays ∧ shiftCondOk d p.2 := by
  unfold fallbackUTCellOk at hok
  simp only [Bool.and_eq_true] at hok
  have h1 := hok.1.1
  constructor
  · by_cases hc : d.workDays ≠ [] ∧ ¬(d.workDays.contains p.1)
    · rw [if_pos hc] at h1
      exact absurd h1 (by simp)
    · push_neg at hc
      simpa using hc hwn
  · exact fallbackShiftOk_shiftCond hok.1.2

/-- The rescue pass respects the UT write discipline. -/
theorem assignFallbackUTSlots_inv {E : List ExtendedDispatcher} {w0 : Schedule}
    (missing : List ExtendedDispatcher) (hsub : ∀ d ∈ missing, d ∈ E)
    (hWd : ∀ d ∈ E, d.workDays ≠ []) :
    ∀ (w : Schedule) (counts : UTCounts), UTWritesInv E w0 w →
    UTWritesInv E w0 (assignFallbackUTSlots w counts missing).1 := by
  intro w counts inv
  unfold assignFallbackUTSlots
  dsimp only
  split
  · exact inv
  · -- general fold over the (re-sorted) missing dispatchers
    have main : ∀ (l : List ExtendedDispatcher)
        (st : Schedule × UTCounts × List (Day × TimeSlot)),
        (∀ d ∈ l, d ∈ E) → UTWritesInv E w0 st.1 →
        (∀ p ∈ st.2.2, st.1 p.1 p.2 UT = "") → st.2.2.Nodup →
        UTWritesInv E w0 ((l.foldl (fun st d =>
          match jsFindIndex (fallbackUTCellOk d st.1) st.2.2 with
          | some i =>
            let p := st.2.2.getD i (monday, t0330)
            if isDispatcherInTimeslot d.id (st.1 p.1) p.2 then st
            else
              (setWeekCell st.1 p.1 p.2 UT d.id,
               fun x => if x = d.id then 1 else st.2.1 x,
               st.2.2.eraseIdx i)
          | none => st) st)).1 := by
      intro l
      induction l with
      | nil => exact fun st _ hinv _ _ => hinv
      | cons d rest ih =>
        intro st hl hinv hli hnd
        simp only [List.foldl_cons]
        have hl' : ∀ d' ∈ rest, d' ∈ E := fun d' h' => hl d' (List.mem_cons_of_mem _ h')
        cases hfi : jsFindIndex (fallbackUTCellOk d st.1) st.2.2 with
        | none =>
          exact ih _ hl' (by simpa [hfi] using hinv) (by simpa [hfi] using hli)
            (by simpa [hfi] using hnd)
        | some i =>
          obtain ⟨hilt, hok⟩ := jsFindIndex_spec (monday, t0330) hfi
          have hdE : d ∈ E := hl d (List.mem_cons_self _ _)
          have hcontent := fallbackUTCellOk_content hok (hWd d hdE)
          have hpD : st.2.2.getD i (monday, t0330) = st.2.2[i] :=
            List.getD_eq_getElem _ _ hilt
          have hpmem : st.2.2.getD i (monday, t0330) ∈ st.2.2 := by
            rw [hpD]; exact List.getElem_mem _
          have hpe : st.1 (st.2.2.getD i (monday, t0330)).1
              (st.2.2.getD i (monday, t0330)).2 UT = "" := hli _ hpmem
          by_cases hit : isDispatcherInTimeslot d.id
              (st.1 (st.2.2.getD i (monday, t0330)).1)
              (st.2.2.getD i (monday, t0330)).2
          · refine ih _ hl' ?_ ?_ ?_ <;> simp only [hfi, if_pos hit] <;>
              first | exact hinv | exact hli | exact hnd
          · have hinv' := UTWritesInv_write hinv hdE hcontent.1 hcontent.2 hpe
            refine ih _ hl' ?_ ?_ ?_ <;> simp only [hfi, if_neg hit]
            · exact hinv'
            · -- remaining entries stay empty: they differ from the written one
              intro q hq
              obtain ⟨j, hjlt, hjne, hjq⟩ := List.mem_eraseIdx_iff_getElem.mp hq
              have hqmem : q ∈ st.2.2 := hjq ▸ List.getElem_mem _
              have hqne : q ≠ st.2.2.getD i (monday, t0330) := by
                rw [hpD, ← hjq]
                intro hc
                exact hjne (hnd.getElem_inj_iff.mp hc)
              have : ¬(q.1 = (st.2.2.getD i (monday, t0330)).1 ∧
                  q.2 = (st.2.2.getD i (monday, t0330)).2 ∧ UT = UT) := by
                intro hc
                exact hqne (Prod.ext hc.1 hc.2.1)
              rw [setWeekCell_ne _ _ _ _ _ this]
              exact hli q hqmem
            · exact (List.eraseIdx_sublist _ _).nodup hnd
    refine main _ _ (fun d hd => hsub d ((List.perm_insertionSort _ _).subset hd)) inv
      (fun p hp => collectEmptyUTSlots_empty hp) (collectEmptyUTSlots_nodup w)

/-- Combined loop invariant of the volunteer pass: the write discipline plus
emptiness of every not-yet-consumed collected cell. -/
def ExtraInv (E : List ExtendedDispatcher) (w0 : Schedule)
    (remaining : List (Day × TimeSlot)) (st : ExtraUTState) : Prop :=
  UTWritesInv E w0 st.week ∧
  ∀ j, st.idx ≤ j → j < remaining.length →
    st.week (remaining.getD j (monday, t0330)).1
      (remaining.getD j (monday, t0330)).2 UT = ""

theorem extraUTStep_inv {E : List ExtendedDispatcher} {w0 : Schedule}
    {remaining : List (Day × TimeSlot)} (hnd : remaining.Nodup)
    {st : ExtraUTState} {d : ExtendedDispatcher} (hdE : d ∈ E)
    (hWd : ∀ d' ∈ E, d'.workDays ≠ []) (hinv : ExtraInv E w0 remaining st) :
    ExtraInv E w0 remaining (extraUTStep remaining st d) := by
  unfold extraUTStep
  by_cases h1 : st.idx ≥ remaining.length
  · rw [if_pos h1]; exact hinv
  · rw [if_neg h1]
    dsimp only
    by_cases h2 : d.workDays ≠ [] ∧ ¬(d.workDays.contains
        (remaining.getD st.idx (monday, t0330)).1)
    · rw [if_pos h2]; exact hinv
    · rw [if_neg h2]
      by_cases h3 : ¬(extraShiftOk d (remaining.getD st.idx (monday, t0330)).2 = true)
      · rw [if_pos h3]; exact hinv
      · rw [if_neg h3]
        by_cases h4 : isDispatcherInTimeslot d.id
            (st.week (remaining.getD st.idx (monday, t0330)).1)
            (remaining.getD st.idx (monday, t0330)).2
        · rw [if_pos h4]; exact hinv
        · rw [if_neg h4]
          have hday : (remaining.getD st.idx (monday, t0330)).1 ∈ d.workDays := by
            push_neg at h2
            simpa using h2 (hWd d hdE)
          have hshift : shiftCondOk d (remaining.getD st.idx (monday, t0330)).2 :=
            extraShiftOk_shiftCond (by simpa using h3)
          have hempty := hinv.2 st.idx (Nat.le_refl _) (by omega)
          refine ⟨UTWritesInv_write hinv.1 hdE hday hshift hempty, ?_⟩
          intro j hj hjlt
          dsimp only at hj hjlt ⊢
          have hne : remaining.getD j (monday, t0330) ≠
              remaining.getD st.idx (monday, t0330) := by
            rw [List.getD_eq_getElem _ _ hjlt, List.getD_eq_getElem _ _ (by omega)]
            intro hc
            have := hnd.getElem_inj_iff.mp hc
            omega
          have hpair : ¬((remaining.getD j (monday, t0330)).1 =
              (remaining.getD st.idx (monday, t0330)).1 ∧
              (remaining.getD j (monday, t0330)).2 =
              (remaining.getD st.idx (monday, t0330)).2 ∧ UT = UT) := by
            intro hc
            exact hne (Prod.ext hc.1 hc.2.1)
          rw [setWeekCell_ne _ _ _ _ _ hpair]
          exact hinv.2 j (by omega) hjlt

theorem extraUTCycle_inv {E : List ExtendedDispatcher} {w0 : Schedule}
    {remaining : List (Day × TimeSlot)} (hnd : remaining.Nodup)
    (extraUt : List ExtendedDispatcher) (hsub : ∀ d ∈ extraUt, d ∈ E)
    (hWd : ∀ d' ∈ E, d'.workDays ≠ []) :
    ∀ st : ExtraUTState, ExtraInv E w0 remaining st →
    ExtraInv E w0 remaining (extraUTCycle remaining extraUt st) := by
  induction extraUt with
  | nil => exact fun st h => h
  | cons d rest ih =>
    intro st h
    show ExtraInv E w0 remaining (extraUTCycle remaining rest (extraUTStep remaining st d))
    exact ih (fun d' h' => hsub d' (List.mem_cons_of_mem _ h'))
      _ (extraUTStep_inv hnd (hsub d (List.mem_cons_self _ _)) hWd h)

theorem extraUTLoop_inv {E : List ExtendedDispatcher} {w0 : Schedule}
    {remaining : List (Day × TimeSlot)} (hnd : remaining.Nodup)
    (extraUt : List ExtendedDispatcher) (hsub : ∀ d ∈ extraUt, d ∈ E)
    (hWd : ∀ d' ∈ E, d'.workDays ≠ []) :
    ∀ (fuel : Nat) (week : Schedule) (counts : UTCounts) (idx : Nat),
    ExtraInv E w0 remaining ⟨week, counts, idx, false⟩ →
    ∀ r, extraUTLoop remaining extraUt fuel week counts idx = some r →
    UTWritesInv E w0 r.1 := by
  intro fuel
  induction fuel with
  | zero =>
    intro week counts idx hinv r hr
    unfold extraUTLoop at hr
    by_cases hlt : idx < remaining.length
    · rw [if_pos hlt] at hr
      dsimp only at hr
      exact absurd hr (by simp)
    · rw [if_neg hlt] at hr
      simp only [Option.some.injEq] at hr
      rw [← hr]
      exact hinv.1
  | succ fuel ih =>
    intro week counts idx hinv r hr
    unfold extraUTLoop at hr
    by_cases hlt : idx < remaining.length
    · rw [if_pos hlt] at hr
      dsimp only at hr
      have hcy := extraUTCycle_inv hnd extraUt hsub hWd
        ⟨week, counts, idx, false⟩ hinv
      by_cases hp : (extraUTCycle remaining extraUt
          ⟨week, counts, idx, false⟩).progress = true
      · rw [if_pos hp] at hr
        refine ih _ _ _ ⟨hcy.1, ?_⟩ r hr
        intro j hj hjlt
        exact hcy.2 j hj hjlt
      · rw [if_neg hp] at hr
        simp only [Option.some.injEq] at hr
        rw [← hr]
        exact hcy.1
    · rw [if_neg hlt] at hr
      simp only [Option.some.injEq] at hr
      rw [← hr]
      exact hinv.1

/-- The volunteer-extra pass respects the UT write discipline. -/
theorem assignExtraUTSlots_inv {E : List ExtendedDispatcher} {w0 : Schedule}
    (sorted : List ExtendedDispatcher) (hsub : ∀ d ∈ sorted, d ∈ E)
    (hWd : ∀ d' ∈ E, d'.workDays ≠ []) :
    ∀ (w : Schedule) (counts : UTCounts), UTWritesInv E w0 w →
    UTWritesInv E w0 (assignExtraUTSlots w counts sorted).1 := by
  intro w counts inv
  unfold assignExtraUTSlots
  dsimp only
  split
  · exact inv
  · split
    · exact inv
    · cases hr : extraUTLoop (collectEmptyUTSlots w)
          (sorted.filter (fun d => d.wantsExtraUtility))
          ((collectEmptyUTSlots w).length + 1) w counts 0 with
      | none => simp only [hr]; exact inv
      | some r =>
        simp only [hr]
        refine extraUTLoop_inv (collectEmptyUTSlots_nodup w) _
          (fun d hd => hsub d (List.mem_filter.mp hd).1) hWd
          _ w counts 0 ⟨inv, ?_⟩ r hr
        intro j _ hjlt
        refine collectEmptyUTSlots_empty ?_
        rw [List.getD_eq_getElem _ _ hjlt]
        exact List.getElem_mem _

/-- `assignUTSlots` write discipline: any cell the UT balancer changes was an
empty UT cell, and its new value is the id of a UT-eligible dispatcher placed
on a literal work day within their shift's base slot set. -/
theorem assignUTSlots_writes (week : Schedule)
    (dispatchers : List ExtendedDispatcher) :
    UTWritesInv (utEligibleSorted dispatchers) week
      (assignUTSlots week dispatchers) := by
  unfold assignUTSlots
  dsimp only
  have hWd : ∀ d ∈ utEligibleSorted dispatchers, d.workDays ≠ [] :=
    fun d hd => (utEligibleSorted_mem hd).2.1
  have h1 := assignPrimaryUTSlots_inv (utEligibleSorted dispatchers)
    (fun d hd => hd) week (countExistingUT week (buildIdByAny dispatchers))
    (UTWritesInv_refl (utEligibleSorted dispatchers) week)
  have h2 : UTWritesInv (utEligibleSorted dispatchers) week
      (if (utEligibleSorted dispatchers).filter
          (fun d => (assignPrimaryUTSlots week
            (countExistingUT week (buildIdByAny dispatchers))
            (utEligibleSorted dispatchers)).2 d.id = 0) ≠ [] then
        assignFallbackUTSlots
          (assignPrimaryUTSlots week
            (countExistingUT week (buildIdByAny dispatchers))
            (utEligibleSorted dispatchers)).1
          (assignPrimaryUTSlots week
            (countExistingUT week (buildIdByAny dispatchers))
            (utEligibleSorted dispatchers)).2
          ((utEligibleSorted dispatchers).filter
            (fun d => (assignPrimaryUTSlots week
              (countExistingUT week (buildIdByAny dispatchers))
              (utEligibleSorted dispatchers)).2 d.id = 0))
      else
        assignPrimaryUTSlots week
          (countExistingUT week (buildIdByAny dispatchers))
          (utEligibleSorted dispatchers)).1 := by
    split
    · exact assignFallbackUTSlots_inv _
        (fun d hd => (List.mem_filter.mp hd).1) hWd _ _ h1
    · exact h1
  exact assignExtraUTSlots_inv _ (fun d hd => hd) hWd _ _ h2

/-! ## Claim C10: UT placement only on literal work days and base shift slots -/

/-- C10: every cell `AssignUT` changes is an empty UT cell that receives the
id of a UT-eligible dispatcher (non-empty `workDays`, not excluded, not a
trainee) on a day in that dispatcher's literal `workDays` list — overnight
spillover days are never used — and, whenever the dispatcher's shift has a
base slot set, the slot lies in it; consequently a dispatcher with empty
`workDays` (and an id not shared with another dispatcher) never receives a
UT cell. -/
theorem C10_ut_writes_on_workdays (week : Schedule)
    (dispatchers : List ExtendedDispatcher) :
    ∀ day slot col,
      assignUTSlots week dispatchers day slot col ≠ week day slot col →
      col = UT ∧ week day slot col = "" ∧
      (∃ d ∈ dispatchers, assignUTSlots week dispatchers day slot col = d.id ∧
        day ∈ d.workDays ∧ d.workDays ≠ [] ∧
        d.excludeFromAutoSchedule = false ∧ isTraineeLike d = false ∧
        (∀ s sl, d.shift = some s → SHIFT_SLOTS s = some sl → slot ∈ sl)) ∧
      (∀ e ∈ dispatchers, e.workDays = [] →
        (∀ d' ∈ dispatchers, d'.id = e.id → d' = e) →
        assignUTSlots week dispatchers day slot col ≠ e.id) := by
  intro day slot col hne
  obtain ⟨hcol, hempty, d, hdE, hval, hday, hshift⟩ :=
    assignUTSlots_writes week dispatchers day slot col hne
  obtain ⟨hmem, hwd, hexc, htr⟩ := utEligibleSorted_mem hdE
  subst hcol
  refine ⟨rfl, hempty, ⟨d, hmem, hval, hday, hwd, hexc, htr, hshift⟩, ?_⟩
  intro e heMem hewd huniq hveq
  have : d = e := huniq d hmem (by rw [← hval, hveq])
  rw [this, hewd] at hday
  exact absurd hday (by simp)

/-- Witness for `C10_ut_writes_on_workdays`: the primary pass places the
Monday-working dispatcher "A" on Monday `0330-0530`, a changed cell for which
the theorem's hypotheses are discharged concretely. -/
theorem C10_witness :
    assignUTSlots emptyWeek [{ id := "A", workDays := [monday] }] monday t0330 UT ≠
      emptyWeek monday t0330 UT ∧
    (UT = UT ∧ emptyWeek monday t0330 UT = "" ∧
      (∃ d ∈ [({ id := "A", workDays := [monday] } : ExtendedDispatcher)],
        assignUTSlots emptyWeek [{ id := "A", workDays := [monday] }]
          monday t0330 UT = d.id ∧
        monday ∈ d.workDays ∧ d.workDays ≠ [] ∧
        d.excludeFromAutoSchedule = false ∧ isTraineeLike d = false ∧
        (∀ s sl, d.shift = some s → SHIFT_SLOTS s = some sl → t0330 ∈ sl)) ∧
      (∀ e ∈ [({ id := "A", workDays := [monday] } : ExtendedDispatcher)],
        e.workDays = [] →
        (∀ d' ∈ [({ id := "A", workDays := [monday] } : ExtendedDispatcher)],
          d'.id = e.id → d' = e) →
        assignUTSlots emptyWeek [{ id := "A", workDays := [monday] }]
          monday t0330 UT ≠ e.id)) :=
  ⟨by decide, C10_ut_writes_on_workdays emptyWeek
    [{ id := "A", workDays := [monday] }] monday t0330 UT (by decide)⟩

/-! ## Claim C5: `GenerateWeek` never blanks a filled non-UT cell -/

theorem head?_dropWhile_false {α} (p : α → Bool) (l : List α) :
    ∀ x, (l.dropWhile p).head? = some x → p x = false := by
  induction l with
  | nil => intro x hx; exact absurd hx (by simp)
  | cons a as ih =>
    intro x hx
    by_cases hp : p a = true
    · rw [List.dropWhile_cons, if_pos hp] at hx
      exact ih x hx
    · rw [List.dropWhile_cons, if_neg hp] at hx
      simp only [List.head?_cons, Option.some.injEq] at hx
      rw [← hx]
      exact Bool.eq_false_iff.mpr hp

theorem dropWhile_eq_self_head {α} {p : α → Bool} :
    ∀ {m : List α}, (∀ x, m.head? = some x → p x = false) → m.dropWhile p = m
  | [], _ => rfl
  | x :: _, h => by
    rw [List.dropWhile_cons, if_neg (by simp [h x rfl])]

theorem jsTrim_idem (s : String) : jsTrim (jsTrim s) = jsTrim s := by
  unfold jsTrim
  congr 1
  generalize s.data = l
  have hA := head?_dropWhile_false Char.isWhitespace l
  have hXA : l.dropWhile Char.isWhitespace =
      ((l.dropWhile Char.isWhitespace).reverse.dropWhile Char.isWhitespace).reverse ++
      ((l.dropWhile Char.isWhitespace).reverse.takeWhile Char.isWhitespace).reverse := by
    conv_lhs => rw [← List.reverse_reverse (l.dropWhile Char.isWhitespace),
      ← List.takeWhile_append_dropWhile Char.isWhitespace
        ((l.dropWhile Char.isWhitespace).reverse)]
    rw [List.reverse_append]
  have h1 : ((l.dropWhile Char.isWhitespace).reverse.dropWhile
      Char.isWhitespace).reverse.dropWhile Char.isWhitespace =
      ((l.dropWhile Char.isWhitespace).reverse.dropWhile Char.isWhitespace).reverse := by
    apply dropWhile_eq_self_head
    intro x hx
    apply hA
    rw [hXA]
    cases hXr : ((l.dropWhile Char.isWhitespace).reverse.dropWhile
        Char.isWhitespace).reverse with
    | nil =>
      rw [hXr] at hx
      exact absurd hx (by simp)
    | cons b bs =>
      rw [hXr] at hx
      simp only [List.head?_cons, Option.some.injEq] at hx
      rw [List.cons_append, List.head?_cons, hx]
  rw [h1, List.reverse_reverse,
    dropWhile_eq_self_head (head?_dropWhile_false Char.isWhitespace _)]

theorem cellParticipants_mem {v p : String} (h : p ∈ cellParticipants v) :
    p ≠ "" ∧ jsTrim p = p := by
  unfold cellParticipants at h
  have h1 := List.mem_filter.mp h
  obtain ⟨q, _, hq⟩ := List.mem_map.mp h1.1
  refine ⟨by simpa using h1.2, ?_⟩
  rw [← hq]
  exact jsTrim_idem q

theorem normalizeIdentifierToId_ne_empty {p : String}
    {dispatchers : List ExtendedDispatcher}
    (hIds : ∀ d ∈ dispatchers, d.id ≠ "") (hp : p ≠ "") (htrim : jsTrim p = p) :
    normalizeIdentifierToId p dispatchers ≠ "" := by
  unfold normalizeIdentifierToId
  rw [if_neg hp]
  dsimp only
  cases hf : dispatchers.find? (fun d => d.id = jsTrim p ∨ d.name = jsTrim p) with
  | some m => exact hIds m (List.mem_of_find?_eq_some hf)
  | none => rw [htrim]; exact hp

theorem joinSlash_ne_empty : ∀ {l : List String}, l ≠ [] → (∀ x ∈ l, x ≠ "") →
    joinSlash l ≠ ""
  | [], h, _ => absurd rfl h
  | [p], _, hx => fun hc => hx p (List.mem_cons_self _ _) hc
  | p :: q :: rest, _, hx => by
    show p ++ "/" ++ joinSlash (q :: rest) ≠ ""
    intro hc
    have : (p ++ "/" ++ joinSlash (q :: rest)).data = [] := by rw [hc]
    simp [String.data_append] at this

theorem normalizeScheduleDayToIds_ne_empty {sched : ScheduleDay}
    {dispatchers : List ExtendedDispatcher} {slot : TimeSlot} {col : Column}
    (hIds : ∀ d ∈ dispatchers, d.id ≠ "") (hne : sched slot col ≠ "") :
    normalizeScheduleDayToIds sched dispatchers slot col ≠ "" := by
  unfold normalizeScheduleDayToIds
  dsimp only
  rw [if_neg hne]
  cases hp : cellParticipants (sched slot col) with
  | nil =>
    rw [if_pos rfl]
    exact hne
  | cons p rest =>
    rw [if_neg (by simp)]
    refine joinSlash_ne_empty (by simp) ?_
    intro x hx
    obtain ⟨q, hq, hqx⟩ := List.mem_map.mp hx
    have hqm := cellParticipants_mem
      (show q ∈ cellParticipants (sched slot col) by rw [hp]; exact hq)
    rw [← hqx]
    exact normalizeIdentifierToId_ne_empty hIds hqm.1 hqm.2

theorem mergeScheduleDays_base_nonempty {base overlay : ScheduleDay}
    {slot : TimeSlot} {col : Column} (h : base slot col ≠ "") :
    mergeScheduleDays base overlay slot col ≠ "" := by
  unfold mergeScheduleDays
  dsimp only
  split
  · next hcond => exact hcond.1
  · exact h

theorem hasAnyAssignments_of_cell {sched : ScheduleDay} {slot : TimeSlot}
    {col : Column} (h : sched slot col ≠ "") : hasAnyAssignments sched = true := by
  unfold hasAnyAssignments
  rw [List.any_eq_true]
  exact ⟨slot, by cases slot <;> decide,
    List.any_eq_true.mpr ⟨col, by cases col <;> decide, by simpa using h⟩⟩

/-- The UT balancer leaves every non-UT cell untouched. -/
theorem assignUTSlots_nonUT (week : Schedule)
    (dispatchers : List ExtendedDispatcher) (day : Day) (slot : TimeSlot)
    (col : Column) (hcol : col ≠ UT) :
    assignUTSlots week dispatchers day slot col = week day slot col := by
  by_cases h : assignUTSlots week dispatchers day slot col = week day slot col
  · exact h
  · exact absurd (assignUTSlots_writes week dispatchers day slot col h).1 hcol

/-- C5: `GenerateWeek` never removes a previously-filled non-UT cell — every
non-UT cell that is non-empty in the input schedule is still non-empty in the
output (solved values only overwrite empty or replaced cells), for every
roster whose dispatcher ids are non-empty tokens. -/
theorem C5_merge_monotone (current : Schedule)
    (dispatchers : List ExtendedDispatcher)
    (hIds : ∀ d ∈ dispatchers, d.id ≠ "") :
    ∀ day slot col, col ≠ UT → current day slot col ≠ "" →
    generateWeeklySchedule current dispatchers day slot col ≠ "" := by
  intro day slot col hcol hne
  unfold generateWeeklySchedule
  rw [assignUTSlots_nonUT _ _ day slot col hcol]
  unfold normalizeScheduleWeekToIds
  refine normalizeScheduleDayToIds_ne_empty hIds ?_
  unfold processDaySchedule
  dsimp only
  have hmerge : mergeScheduleDays (current day)
      (generateScheduleForDay day dispatchers (some (current day))) slot col ≠ "" :=
    mergeScheduleDays_base_nonempty hne
  rw [if_pos (hasAnyAssignments_of_cell hmerge)]
  exact hmerge

/-- Witness for `C5_merge_monotone` on a week holding "A" at Monday
`0330-0530`/SW. -/
theorem C5_witness :
    (∀ d ∈ [({ id := "A" } : ExtendedDispatcher)], d.id ≠ "") ∧
    (∀ day slot col, col ≠ UT →
      mkWeek [(monday, mkDay [(t0330, SW, "A")])] day slot col ≠ "" →
      generateWeeklySchedule (mkWeek [(monday, mkDay [(t0330, SW, "A")])])
        [({ id := "A" } : ExtendedDispatcher)] day slot col ≠ "") :=
  ⟨by decide, C5_merge_monotone (mkWeek [(monday, mkDay [(t0330, SW, "A")])])
    [({ id := "A" } : ExtendedDispatcher)] (by decide)⟩

/-! ## Claim C2: disabled cells stay empty -/

/-- Cell property behind C2: all externally disabled cells are empty. -/
def DisabledEmpty (day : Day) (sched : ScheduleDay) : Prop :=
  ∀ slot col, isCellDisabled day slot col = true → sched slot col = ""

theorem DisabledEmpty_write {day : Day} {sched : ScheduleDay}
    {e : ExtendedDispatcher} {s : TimeSlot} {c : Column}
    (hok : WriteOk day e sched s c) :
    DisabledEmpty day sched → DisabledEmpty day (setCell sched s c e.id) := by
  intro hP slot col hdis
  have hne : ¬(slot = s ∧ col = c) := by
    intro hc
    rw [hc.1, hc.2] at hdis
    rw [hok.2.1] at hdis
    exact absurd hdis (by simp)
  rw [setCell_ne _ _ _ _ hne]
  exact hP slot col hdis

/-- The day passes keep disabled cells empty from the sanitized seed on. -/
theorem dayPasses_disabled (day : Day) (dispatchers : List ExtendedDispatcher)
    (sched0 : ScheduleDay) :
    DisabledEmpty day
      (processExtraRadioAssignments
        (processDispatcherAssignments
          (sanitizeLockedAssignments day
            (normalizeScheduleDayToIds sched0 dispatchers) dispatchers)
          (prepareDispatchers dispatchers day) day)
        (prepareDispatchers dispatchers day) day) := by
  have hsan : DisabledEmpty day
      (sanitizeLockedAssignments day
        (normalizeScheduleDayToIds sched0 dispatchers) dispatchers) := by
    intro slot col hdis
    have hx := sanitizeLockedAssignments_sound day
      (normalizeScheduleDayToIds sched0 dispatchers) dispatchers slot col
    rcases hx with h | ⟨_, h2, _⟩
    · exact h
    · rw [h2] at hdis
      exact absurd hdis (by simp)
  have HP : ∀ sched e s c, e ∈ prepareDispatchers dispatchers day →
      WriteOk day e sched s c → DisabledEmpty day sched →
      DisabledEmpty day (setCell sched s c e.id) :=
    fun _ _ _ _ _ hok hP => DisabledEmpty_write hok hP
  exact processExtraRadioAssignments_preserve (DisabledEmpty day)
    day (prepareDispatchers dispatchers day) HP _
    (processDispatcherAssignments_preserve (DisabledEmpty day)
      day (prepareDispatchers dispatchers day) HP _ hsan)

theorem normalizeScheduleDayToIds_empty {sched : ScheduleDay}
    {dispatchers : List ExtendedDispatcher} {slot : TimeSlot} {col : Column}
    (h : sched slot col = "") :
    normalizeScheduleDayToIds sched dispatchers slot col = "" := by
  unfold normalizeScheduleDayToIds
  dsimp only
  rw [if_pos h]
  exact h

theorem mergeScheduleDays_overlay_empty {base overlay : ScheduleDay}
    {slot : TimeSlot} {col : Column} (h : overlay slot col = "") :
    mergeScheduleDays base overlay slot col = base slot col := by
  unfold mergeScheduleDays
  dsimp only
  rw [if_neg (by simp [h])]

theorem fallbackColumnStep_other (eligibleForSlot : List ExtendedDispatcher)
    (slotIdx : Nat) (slot : TimeSlot) (st : ScheduleDay × List String × Nat)
    (col : Column) {s0 : TimeSlot} {c0 : Column} (h : ¬(s0 = slot ∧ c0 = col)) :
    (fallbackColumnStep eligibleForSlot slotIdx slot st col).1 s0 c0 =
    st.1 s0 c0 := by
  unfold fallbackColumnStep
  dsimp only
  split
  · rfl
  · split
    · exact setCell_ne _ _ _ _ h
    · rfl

theorem fallbackColsFold_other (eligibleForSlot : List ExtendedDispatcher)
    (slotIdx : Nat) (slot : TimeSlot) :
    ∀ (l : List Column) (st : ScheduleDay × List String × Nat)
      {s0 : TimeSlot} {c0 : Column}, (s0 ≠ slot ∨ c0 ∉ l) →
    (l.foldl (fallbackColumnStep eligibleForSlot slotIdx slot) st).1 s0 c0 =
    st.1 s0 c0 := by
  intro l
  induction l with
  | nil =>
    intro st s0 c0 _
    rfl
  | cons col rest ih =>
    intro st s0 c0 h
    simp only [List.foldl_cons]
    have h1 : s0 ≠ slot ∨ c0 ∉ rest := by
      rcases h with h | h
      · exact Or.inl h
      · exact Or.inr (fun hc => h (List.mem_cons_of_mem _ hc))
    have h2 : ¬(s0 = slot ∧ c0 = col) := by
      rcases h with h | h
      · exact fun hc => h hc.1
      · exact fun hc => h (hc.2 ▸ List.mem_cons_self _ _)
    rw [ih _ h1, fallbackColumnStep_other _ _ _ _ _ h2]

/-- The shift-aware fallback never touches a disabled cell. -/
theorem applyShiftAwareFallback_disabled {day : Day}
    {dispatchers : List ExtendedDispatcher} {sched : ScheduleDay}
    {slot : TimeSlot} {col : Column} (hdis : isCellDisabled day slot col = true)
    (hempty : sched slot col = "") :
    applyShiftAwareFallback day dispatchers sched slot col = "" := by
  unfold applyShiftAwareFallback
  dsimp only
  split
  · exact hempty
  · have main : ∀ (l : List (Nat × TimeSlot)) (st : ScheduleDay × Nat),
        st.1 slot col = "" →
        (l.foldl (fun st p => fallbackSlotStep day
          (dispatchers.filter (fun d =>
            if d.excludeFromAutoSchedule = true then false
            else if isTraineeLike d = true then false
            else if d.workDays = [] then true
            else if d.workDays.contains day = true then true
            else decide ((d.shift = some "E" ∨ d.shift = some "F")
              ∧ d.workDays.contains (getPreviousDay day) = true)))
          st (p.1, p.2)) st).1 slot col = "" := by
      intro l
      induction l with
      | nil => exact fun st h => h
      | cons p rest ih =>
        intro st h
        simp only [List.foldl_cons]
        refine ih _ ?_
        unfold fallbackSlotStep
        dsimp only
        split
        · exact h
        · by_cases hslot : slot = p.2
          · subst hslot
            rw [fallbackColsFold_other _ _ _ _ _ (Or.inr (fun hc =>
              by simpa [hdis] using (List.mem_filter.mp hc).2))]
            exact h
          · rw [fallbackColsFold_other _ _ _ _ _ (Or.inl hslot)]
            exact h
    exact main _ _ (normalizeScheduleDayToIds_empty hempty)

theorem isCellDisabled_MT : ∀ (day : Day) (slot : TimeSlot) (col : Column),
    isCellDisabled day slot col = true → col = MT := by decide

/-- Input week for the C2 counterexample: a non-empty value sits in a
disabled cell of the current schedule. -/
def weekC2 : Schedule :=
  mkWeek [(Day.monday, mkDay [(TimeSlot.t0330, Column.MT, "A")])]

/-- C2 counterexample: the Monday 0330-0530 MT cell is externally disabled,
yet `generateWeeklySchedule` returns it non-empty when the caller's current
schedule already held a value there — the merge step resurrects the value the
day solver had cleared, so the claim's "including inputs where that cell was
non-empty" part fails for `GenerateWeek`. -/
theorem C2_counterexample :
    isCellDisabled Day.monday TimeSlot.t0330 Column.MT = true ∧
    generateWeeklySchedule weekC2 [] Day.monday TimeSlot.t0330 Column.MT = "A" := by
  constructor
  · decide
  · decide

/-- C2 (amended): `GenerateDay` always returns disabled cells empty, for every
roster and locked schedule; `GenerateWeek` returns a disabled cell empty
provided the caller's current schedule had it empty (a non-empty disabled cell
of the input survives the merge, as the counterexample shows). -/
theorem C2_amended_disabled_empty :
    (∀ (day : Day) (dispatchers : List ExtendedDispatcher)
       (locked : Option ScheduleDay) (slot : TimeSlot) (col : Column),
      isCellDisabled day slot col = true →
      generateScheduleForDay day dispatchers locked slot col = "") ∧
    (∀ (current : Schedule) (dispatchers : List ExtendedDispatcher)
       (day : Day) (slot : TimeSlot) (col : Column),
      isCellDisabled day slot col = true → current day slot col = "" →
      generateWeeklySchedule current dispatchers day slot col = "") := by
  constructor
  · intro day dispatchers locked slot col hdis
    cases locked with
    | none => exact dayPasses_disabled day dispatchers createEmptyScheduleDay slot col hdis
    | some l => exact dayPasses_disabled day dispatchers (cloneScheduleDay l) slot col hdis
  · intro current dispatchers day slot col hdis hemp
    have hcol : col ≠ UT := by
      intro hc
      exact absurd (isCellDisabled_MT day slot col hdis) (by rw [hc]; decide)
    have hsolved : generateScheduleForDay day dispatchers (some (current day)) slot col = "" :=
      dayPasses_disabled day dispatchers (cloneScheduleDay (current day)) slot col hdis
    have hmerged : mergeScheduleDays (current day)
        (generateScheduleForDay day dispatchers (some (current day))) slot col = "" := by
      rw [mergeScheduleDays_overlay_empty hsolved]
      exact hemp
    unfold generateWeeklySchedule
    rw [assignUTSlots_nonUT _ _ _ _ _ hcol]
    unfold normalizeScheduleWeekToIds
    refine normalizeScheduleDayToIds_empty ?_
    unfold processDaySchedule
    dsimp only
    split
    · exact hmerged
    · exact applyShiftAwareFallback_disabled hdis hmerged

/-- C2 witness: the amended theorem at a concrete disabled cell (Monday
0330-0530, MT) with an empty roster and empty inputs. -/
theorem C2_witness :
    generateScheduleForDay Day.monday [] none TimeSlot.t0330 Column.MT = "" ∧
    generateWeeklySchedule emptyWeek [] Day.monday TimeSlot.t0330 Column.MT = "" :=
  ⟨C2_amended_disabled_empty.1 Day.monday [] none TimeSlot.t0330 Column.MT (by decide),
   C2_amended_disabled_empty.2 emptyWeek [] Day.monday TimeSlot.t0330 Column.MT
     (by decide) (by rfl)⟩

/-! ## Claim C6: seniority ordering in the primary pass -/

/-- C6: with both dispatchers available on `day` (so `prepareDispatchers`
keeps them) and ranks 1 and 2, the roster is reordered most-senior-first; the
rank-1 dispatcher's best preferred option `(s, c)` is written with their id in
the primary pass and survives to the end of the pass; the rank-2 dispatcher,
whose best preferred option on the incoming schedule is the same cell, either
receives their next valid preferred option (necessarily a different cell, now
that `(s, c)` is taken) or, when no preferred option remains, falls through to
the minimum-slot load-balanced assignment. -/
theorem C6_seniority_ordering (d1 d2 : ExtendedDispatcher) (sched : ScheduleDay)
    (day : Day) (s : TimeSlot) (c : Column) (a1 a2 : Assignment)
    (hx1 : d1.excludeFromAutoSchedule = false) (ht1 : isTraineeLike d1 = false)
    (hw1 : d1.workDays.contains day = true)
    (hx2 : d2.excludeFromAutoSchedule = false) (ht2 : isTraineeLike d2 = false)
    (hw2 : d2.workDays.contains day = true)
    (h1 : getSeniorityRank d1 = 1) (h2 : getSeniorityRank d2 = 2)
    (hp1 : hasPreferences d1 = true) (hp2 : hasPreferences d2 = true)
    (hid1 : d1.id ≠ "")
    (hscan1 : preferredScan d1 sched day = some a1)
    (ha1 : a1.slot = s ∧ a1.col = c)
    (hscan2 : preferredScan d2 sched day = some a2)
    (ha2 : a2.slot = s ∧ a2.col = c) :
    prepareDispatchers [d2, d1] day = [d1, d2] ∧
    (processDispatcherAssignment d1 sched day).1 = setCell sched s c d1.id ∧
    processDispatcherAssignments sched [d1, d2] day s c = d1.id ∧
    ((∃ a, preferredScan d2 (setCell sched s c d1.id) day = some a ∧
        (a.slot, a.col) ≠ (s, c) ∧
        processDispatcherAssignments sched [d1, d2] day a.slot a.col = d2.id) ∨
      (preferredScan d2 (setCell sched s c d1.id) day = none ∧
        processDispatcherAssignments sched [d1, d2] day =
          (assignMinimumSlot d2 (setCell sched s c d1.id) day).1)) := by
  obtain ⟨hs1, hc1⟩ := ha1
  have hprep : prepareDispatchers [d2, d1] day = [d1, d2] := by
    have hw1' : day ∈ d1.workDays := by simpa using hw1
    have hw2' : day ∈ d2.workDays := by simpa using hw2
    unfold prepareDispatchers
    simp [List.filter, List.insertionSort, List.orderedInsert,
      hx1, ht1, hw1', hx2, ht2, hw2', h1, h2]
  have hstep1 : (processDispatcherAssignment d1 sched day).1 = setCell sched s c d1.id := by
    simp only [processDispatcherAssignment, assignPreferredSlot, hp1, hscan1]
    simp [hs1, hc1]
  have hfinal : processDispatcherAssignments sched [d1, d2] day =
      (processDispatcherAssignment d2 (setCell sched s c d1.id) day).1 := by
    simp only [processDispatcherAssignments, List.foldl_cons, List.foldl_nil]
    rw [hstep1]
  have hcell : setCell sched s c d1.id s c = d1.id := setCell_same _ _ _ _
  refine ⟨hprep, hstep1, ?_, ?_⟩
  · rw [hfinal]
    cases hscan2' : preferredScan d2 (setCell sched s c d1.id) day with
    | some a =>
      have hok := preferredScan_ok hscan2'
      have hne : ¬(s = a.slot ∧ c = a.col) := by
        intro hc
        rw [← hc.1, ← hc.2] at hok
        exact hid1 (hcell ▸ hok.1)
      simp only [processDispatcherAssignment, assignPreferredSlot, hp2, hscan2']
      simp only [not_true, ite_false, Option.isSome_some, Option.isSome_none, Bool.false_eq_true, eq_self_iff_true, ite_true]
      rw [setCell_ne _ _ _ _ hne]
      exact hcell
    | none =>
      simp only [processDispatcherAssignment, assignPreferredSlot, hp2, hscan2']
      simp only [not_true, ite_false, Option.isSome_some, Option.isSome_none, Bool.false_eq_true, eq_self_iff_true, ite_true]
      cases hmin : minimumSlotSearch d2 (setCell sched s c d1.id) day with
      | some p =>
        have hok := minimumSlotSearch_ok hmin
        have hne : ¬(s = p.1 ∧ c = p.2) := by
          intro hc
          rw [← hc.1, ← hc.2] at hok
          exact hid1 (hcell ▸ hok.1)
        simp only [assignMinimumSlot, hmin]
        rw [setCell_ne _ _ _ _ hne]
        exact hcell
      | none =>
        simp only [assignMinimumSlot, hmin]
        exact hcell
  · cases hscan2' : preferredScan d2 (setCell sched s c d1.id) day with
    | some a =>
      left
      have hok := preferredScan_ok hscan2'
      have hne : ¬(a.slot = s ∧ a.col = c) := by
        intro hc
        rw [hc.1, hc.2] at hok
        exact hid1 (hcell ▸ hok.1)
      refine ⟨a, rfl, by simpa [Prod.ext_iff] using hne, ?_⟩
      rw [hfinal]
      simp only [processDispatcherAssignment, assignPreferredSlot, hp2, hscan2']
      simp only [not_true, ite_false, Option.isSome_some, Option.isSome_none, Bool.false_eq_true, eq_self_iff_true, ite_true]
      exact setCell_same _ _ _ _
    | none =>
      right
      refine ⟨rfl, ?_⟩
      rw [hfinal]
      simp only [processDispatcherAssignment, assignPreferredSlot, hp2, hscan2']
      simp only [not_true, ite_false, Option.isSome_some, Option.isSome_none, Bool.false_eq_true, eq_self_iff_true, ite_true]

/-- Rank-1 dispatcher for the C6 witness. -/
def d1C6 : ExtendedDispatcher :=
  { id := "A", seniority := some 1, workDays := [Day.monday],
    preferredChannels := [Column.SW] }

/-- Rank-2 dispatcher for the C6 witness: same single best preferred cell. -/
def d2C6 : ExtendedDispatcher :=
  { id := "B", seniority := some 2, workDays := [Day.monday],
    preferredChannels := [Column.SW] }

/-- C6 witness: the seniority-ordering theorem at a concrete pair of
dispatchers both preferring Monday 0330-0530 SW. -/
theorem C6_witness :
    prepareDispatchers [d2C6, d1C6] Day.monday = [d1C6, d2C6] ∧
    (processDispatcherAssignment d1C6 createEmptyScheduleDay Day.monday).1 =
      setCell createEmptyScheduleDay TimeSlot.t0330 Column.SW d1C6.id ∧
    processDispatcherAssignments createEmptyScheduleDay [d1C6, d2C6] Day.monday
      TimeSlot.t0330 Column.SW = d1C6.id ∧
    ((∃ a, preferredScan d2C6
        (setCell createEmptyScheduleDay TimeSlot.t0330 Column.SW d1C6.id)
        Day.monday = some a ∧
        (a.slot, a.col) ≠ (TimeSlot.t0330, Column.SW) ∧
        processDispatcherAssignments createEmptyScheduleDay [d1C6, d2C6]
          Day.monday a.slot a.col = d2C6.id) ∨
      (preferredScan d2C6
        (setCell createEmptyScheduleDay TimeSlot.t0330 Column.SW d1C6.id)
        Day.monday = none ∧
        processDispatcherAssignments createEmptyScheduleDay [d1C6, d2C6]
          Day.monday =
        (assignMinimumSlot d2C6
          (setCell createEmptyScheduleDay TimeSlot.t0330 Column.SW d1C6.id)
          Day.monday).1)) :=
  C6_seniority_ordering d1C6 d2C6 createEmptyScheduleDay Day.monday
    TimeSlot.t0330 Column.SW ⟨TimeSlot.t0330, Column.SW, 0⟩
    ⟨TimeSlot.t0330, Column.SW, 0⟩
    (by decide) (by decide) (by decide) (by decide) (by decide) (by decide)
    (by decide) (by decide) (by decide) (by decide) (by decide)
    (by decide) (by decide) (by decide) (by decide)

/-! ## Claim C4: UT completeness -/

/-- The empty, conflict-free UT cells a dispatcher can reach on their work
days and shift slots: the full filter of the candidate list scanned by
`primaryUTScan` (which returns this list's head). -/
def utReach (d : ExtendedDispatcher) (week : Schedule) : List (Day × TimeSlot) :=
  (d.workDays.flatMap (fun day =>
    (getEligibleSlots d).map (fun slot => (day, slot)))).filter (fun p =>
      decide (week p.1 p.2 UT = "") &&
      !(isDispatcherInTimeslot d.id (week p.1) p.2))

/-- A dispatcher id holds a UT cell of the week (under the canonical-key
reading used by the balancer's own counting loop). -/
def holdsUT (idByAny : String → Option String) (week : Schedule) (id : String) :
    Prop :=
  ∃ day slot, week day slot UT ≠ "" ∧ utKey idByAny (week day slot UT) = id

instance holdsUT.dec (idByAny : String → Option String) (week : Schedule)
    (id : String) : Decidable (holdsUT idByAny week id) := by
  unfold holdsUT
  exact inferInstance

/-- Most-senior dispatcher of the C4 counterexample: no shift, so every slot
of their single work day is reachable. -/
def dA4 : ExtendedDispatcher :=
  { id := "A", seniority := some 1, workDays := [Day.monday] }

/-- Junior dispatcher of the C4 counterexample: shift A, whose only empty UT
cell (Monday 0330-0530) is also dispatcher A's first candidate. -/
def dB4 : ExtendedDispatcher :=
  { id := "B", seniority := some 2, workDays := [Day.monday], shift := some "A" }

/-- C4 counterexample week: Monday UT holds `Z` on the remaining shift-A
slots, leaving 0330-0530 as dispatcher B's only reachable empty UT cell. -/
def weekC4 : Schedule :=
  mkWeek [(Day.monday, mkDay [(TimeSlot.t0530, Column.UT, "Z"),
    (TimeSlot.t0730, Column.UT, "Z"), (TimeSlot.t0930, Column.UT, "Z"),
    (TimeSlot.t1130, Column.UT, "Z")])]

/-- C4 counterexample: both dispatchers are UT-eligible with no existing UT
assignment, the reachable empty UT capacity (6 cells) exceeds the number of
eligible dispatchers (2), and each dispatcher reaches at least one empty
conflict-free UT cell — yet after `assignUTSlots` the junior dispatcher holds
no UT cell at all: the senior greedy pick takes B's only cell, and the rescue
pass finds no remaining empty cell on B's work day and shift. -/
theorem C4_counterexample :
    utEligibleSorted [dA4, dB4] = [dA4, dB4] ∧
    (utEligibleSorted [dA4, dB4]).length ≤
      ((utReach dA4 weekC4).toFinset ∪ (utReach dB4 weekC4).toFinset).card ∧
    utReach dA4 weekC4 ≠ [] ∧ utReach dB4 weekC4 ≠ [] ∧
    countExistingUT weekC4 (buildIdByAny [dA4, dB4]) dA4.id = 0 ∧
    countExistingUT weekC4 (buildIdByAny [dA4, dB4]) dB4.id = 0 ∧
    holdsUT (buildIdByAny [dA4, dB4]) (assignUTSlots weekC4 [dA4, dB4]) dA4.id ∧
    ¬ holdsUT (buildIdByAny [dA4, dB4]) (assignUTSlots weekC4 [dA4, dB4]) dB4.id := by
  refine ⟨by decide, by decide, by decide, by decide, by decide, by decide,
    by decide, by decide⟩

theorem listAny_ext {α : Type} (l : List α) (p q : α → Bool)
    (h : ∀ a, p a = q a) : l.any p = l.any q := by
  induction l with
  | nil => rfl
  | cons a rest ih => simp [List.any_cons, h a, ih]

theorem isDispatcherInTimeslot_row {s1 s2 : ScheduleDay} {slot : TimeSlot}
    (h : ∀ col, s1 slot col = s2 slot col) (key : String) :
    isDispatcherInTimeslot key s1 slot = isDispatcherInTimeslot key s2 slot := by
  unfold isDispatcherInTimeslot
  exact listAny_ext _ _ _ (fun col => by rw [h col])

theorem holdsUT_mono {idByAny : String → Option String} {w w' : Schedule}
    (h : ∀ day slot, w' day slot UT ≠ w day slot UT → w day slot UT = "")
    {id : String} : holdsUT idByAny w id → holdsUT idByAny w' id := by
  rintro ⟨day, slot, hne, hkey⟩
  by_cases hc : w' day slot UT = w day slot UT
  · exact ⟨day, slot, by rw [hc]; exact hne, by rw [hc]; exact hkey⟩
  · exact absurd (h day slot hc) hne

theorem countExistingUT_pos {week : Schedule} {idByAny : String → Option String}
    {id : String} (h : 1 ≤ countExistingUT week idByAny id) :
    holdsUT idByAny week id := by
  unfold countExistingUT at h
  have inner : ∀ (day : Day) (sl : List TimeSlot) (c : UTCounts),
      (∀ x, 1 ≤ c x → holdsUT idByAny week x) →
      ∀ x, 1 ≤ (sl.foldl (fun counts slot =>
        let v := week day slot UT
        if v ≠ "" then
          fun y => if y = utKey idByAny v then counts y + 1 else counts y
        else counts) c) x → holdsUT idByAny week x := by
    intro day sl
    induction sl with
    | nil => exact fun c hc => hc
    | cons slot rest ih =>
      intro c hc x
      simp only [List.foldl_cons]
      refine ih _ ?_ x
      intro y hy
      by_cases hv : week day slot UT ≠ ""
      · rw [if_pos hv] at hy
        by_cases hk : y = utKey idByAny (week day slot UT)
        · exact hk ▸ ⟨day, slot, hv, rfl⟩
        · rw [if_neg hk] at hy
          exact hc y hy
      · rw [if_neg hv] at hy
        exact hc y hy
  have outer : ∀ (ds : List Day) (c : UTCounts),
      (∀ x, 1 ≤ c x → holdsUT idByAny week x) →
      ∀ x, 1 ≤ (ds.foldl (fun counts day =>
        timeSlots.foldl (fun counts slot =>
          let v := week day slot UT
          if v ≠ "" then
            fun y => if y = utKey idByAny v then counts y + 1 else counts y
          else counts) counts) c) x → holdsUT idByAny week x := by
    intro ds
    induction ds with
    | nil => exact fun c hc => hc
    | cons day rest ih =>
      intro c hc x
      simp only [List.foldl_cons]
      exact ih _ (inner day timeSlots c hc) x
  exact outer days (fun _ => 0) (fun x hx => absurd hx (by simp)) id h

theorem utReach_setWeekCell {d : ExtendedDispatcher} {w : Schedule}
    {day0 : Day} {slot0 : TimeSlot} {v : String} {p : Day × TimeSlot}
    (hp : p ∈ utReach d w) (hne : p ≠ (day0, slot0)) :
    p ∈ utReach d (setWeekCell w day0 slot0 UT v) := by
  unfold utReach at hp ⊢
  obtain ⟨hmem, hpred⟩ := List.mem_filter.mp hp
  refine List.mem_filter.mpr ⟨hmem, ?_⟩
  have hpair : ¬(p.1 = day0 ∧ p.2 = slot0) := by
    intro hc
    exact hne (Prod.ext hc.1 hc.2)
  have hrow : ∀ col, setWeekCell w day0 slot0 UT v p.1 p.2 col = w p.1 p.2 col :=
    fun col => setWeekCell_ne _ _ _ _ _ (fun hc => hpair ⟨hc.1, hc.2.1⟩)
  simp only [Bool.and_eq_true, decide_eq_true_eq, Bool.not_eq_true'] at hpred ⊢
  exact ⟨by rw [hrow UT]; exact hpred.1,
    by rw [isDispatcherInTimeslot_row hrow]; exact hpred.2⟩

theorem primaryUTScan_of_reach {d : ExtendedDispatcher} {w : Schedule}
    (h : utReach d w ≠ []) :
    ∃ day slot, primaryUTScan d w = some (day, slot) ∧ w day slot UT = "" := by
  cases hs : primaryUTScan d w with
  | none =>
    unfold primaryUTScan at hs
    rw [List.find?_eq_none] at hs
    refine absurd ?_ h
    unfold utReach
    exact List.filter_eq_nil.mpr (fun p hp => by simpa using hs p hp)
  | some p =>
    have hpred := List.find?_some hs
    simp only [Bool.and_eq_true, decide_eq_true_eq] at hpred
    exact ⟨p.1, p.2, rfl, hpred.1⟩

theorem assignPrimaryUTSlots_mono (todo : List ExtendedDispatcher) :
    ∀ (w : Schedule) (cnt : UTCounts) (x : String),
      cnt x ≤ (assignPrimaryUTSlots w cnt todo).2 x := by
  induction todo with
  | nil => exact fun w cnt x => Nat.le_refl _
  | cons d rest ih =>
    intro w cnt x
    unfold assignPrimaryUTSlots
    rw [List.foldl_cons]
    dsimp only
    by_cases h0 : cnt d.id = 0
    · rw [if_pos h0]
      cases hscan : primaryUTScan d w with
      | none => exact ih w cnt x
      | some p =>
        obtain ⟨day, slot⟩ := p
        have step2 : cnt x ≤ (fun y => if y = d.id then 1 else cnt y) x := by
          show cnt x ≤ if x = d.id then 1 else cnt x
          by_cases hx : x = d.id
          · rw [if_pos hx, hx, h0]
            exact Nat.zero_le 1
          · rw [if_neg hx]
        exact le_trans step2
          (ih (setWeekCell w day slot UT d.id) (fun y => if y = d.id then 1 else cnt y) x)
    · rw [if_neg h0]
      exact ih w cnt x

theorem assignPrimaryUTSlots_complete (idByAny : String → Option String) :
    ∀ (todo : List ExtendedDispatcher),
      (∀ d ∈ todo, d.id ≠ "" ∧ utKey idByAny d.id = d.id) →
      todo.Pairwise (fun a b => a.id ≠ b.id) →
      ∀ (w : Schedule) (cnt : UTCounts),
      (∀ x, 1 ≤ cnt x → holdsUT idByAny w x) →
      (∀ d ∈ todo, 1 ≤ cnt d.id ∨ todo.length ≤ (utReach d w).toFinset.card) →
      (∀ d ∈ todo, 1 ≤ (assignPrimaryUTSlots w cnt todo).2 d.id) ∧
      (∀ x, 1 ≤ (assignPrimaryUTSlots w cnt todo).2 x →
        holdsUT idByAny (assignPrimaryUTSlots w cnt todo).1 x) := by
  intro todo
  induction todo with
  | nil =>
    intro _ _ w cnt hbase _
    exact ⟨fun d hd => absurd hd (List.not_mem_nil d), fun x hx => hbase x hx⟩
  | cons d rest ih =>
    intro hids hdist w cnt hbase hcap
    obtain ⟨hid, hkey⟩ := hids d (List.mem_cons_self _ _)
    have hids' : ∀ d' ∈ rest, d'.id ≠ "" ∧ utKey idByAny d'.id = d'.id :=
      fun d' hd' => hids d' (List.mem_cons_of_mem _ hd')
    have hdistHead : ∀ d' ∈ rest, d.id ≠ d'.id := (List.pairwise_cons.mp hdist).1
    have hdist' := (List.pairwise_cons.mp hdist).2
    unfold assignPrimaryUTSlots
    rw [List.foldl_cons]
    dsimp only
    by_cases h0 : cnt d.id = 0
    · rw [if_pos h0]
      have hreach : utReach d w ≠ [] := by
        intro hnil
        rcases hcap d (List.mem_cons_self _ _) with hl | hr
        · rw [h0] at hl
          exact absurd hl (by simp)
        · rw [hnil] at hr
          simp only [List.toFinset_nil, Finset.card_empty, List.length_cons] at hr
          omega
      obtain ⟨day, slot, hscan, hempty⟩ := primaryUTScan_of_reach hreach
      rw [hscan]
      have hmono : ∀ da sl, setWeekCell w day slot UT d.id da sl UT ≠ w da sl UT →
          w da sl UT = "" := by
        intro da sl hne
        by_cases hc : da = day ∧ sl = slot
        · rw [hc.1, hc.2]
          exact hempty
        · exact absurd (setWeekCell_ne w day slot UT d.id
            (fun hcc => hc ⟨hcc.1, hcc.2.1⟩)) hne
      have hbase' : ∀ x, 1 ≤ (fun y => if y = d.id then 1 else cnt y) x →
          holdsUT idByAny (setWeekCell w day slot UT d.id) x := by
        intro x hx
        by_cases hxid : x = d.id
        · subst hxid
          exact ⟨day, slot, by rw [setWeekCell_same]; exact hid,
            by rw [setWeekCell_same]; exact hkey⟩
        · have hx' : 1 ≤ cnt x := by simpa [hxid] using hx
          exact holdsUT_mono hmono (hbase x hx')
      have hcap' : ∀ d' ∈ rest, 1 ≤ (fun y => if y = d.id then 1 else cnt y) d'.id ∨
          rest.length ≤ (utReach d' (setWeekCell w day slot UT d.id)).toFinset.card := by
        intro d' hd'
        have hne' : d'.id ≠ d.id := fun hc => hdistHead d' hd' hc.symm
        rcases hcap d' (List.mem_cons_of_mem _ hd') with hl | hr
        · left
          show 1 ≤ if d'.id = d.id then 1 else cnt d'.id
          rw [if_neg hne']
          exact hl
        · right
          have hsub : (utReach d' w).toFinset.erase (day, slot) ⊆
              (utReach d' (setWeekCell w day slot UT d.id)).toFinset := by
            intro p hp
            obtain ⟨hpne, hpmem⟩ := Finset.mem_erase.mp hp
            exact List.mem_toFinset.mpr
              (utReach_setWeekCell (List.mem_toFinset.mp hpmem) hpne)
          have h1 : (utReach d' w).toFinset.card - 1 ≤
              ((utReach d' w).toFinset.erase (day, slot)).card :=
            Finset.pred_card_le_card_erase
          have h2 := Finset.card_le_card hsub
          have h3 : (d :: rest).length = rest.length + 1 := rfl
          omega
      obtain ⟨hall, hph⟩ := ih hids' hdist'
        (setWeekCell w day slot UT d.id) (fun y => if y = d.id then 1 else cnt y)
        hbase' hcap'
      refine ⟨?_, ?_⟩
      · intro d0 hd0
        rcases List.mem_cons.mp hd0 with heq | hd0r
        · have hm := assignPrimaryUTSlots_mono rest (setWeekCell w day slot UT d.id)
            (fun y => if y = d.id then 1 else cnt y) d0.id
          have h1 : (fun y => if y = d.id then 1 else cnt y) d0.id = 1 := by
            show (if d0.id = d.id then 1 else cnt d0.id) = 1
            rw [heq]
            exact if_pos rfl
          exact le_trans (le_of_eq h1.symm) hm
        · exact hall d0 hd0r
      · exact hph
    · rw [if_neg h0]
      have h1 : 1 ≤ cnt d.id := Nat.pos_of_ne_zero h0
      have hcap' : ∀ d' ∈ rest, 1 ≤ cnt d'.id ∨
          rest.length ≤ (utReach d' w).toFinset.card := by
        intro d' hd'
        rcases hcap d' (List.mem_cons_of_mem _ hd') with hl | hr
        · exact Or.inl hl
        · right
          have h3 : (d :: rest).length = rest.length + 1 := rfl
          omega
      obtain ⟨hall, hph⟩ := ih hids' hdist' w cnt hbase hcap'
      refine ⟨?_, hph⟩
      intro d0 hd0
      rcases List.mem_cons.mp hd0 with heq | hd0r
      · have hm := assignPrimaryUTSlots_mono rest w cnt d0.id
        rw [heq] at hm ⊢
        exact le_trans h1 hm
      · exact hall d0 hd0r

/-- C4 (amended): the claim's total-capacity hypothesis is not enough (see
the counterexample); under the stronger per-dispatcher hypothesis — every
UT-eligible dispatcher either already holds a UT assignment counted by the
balancer, or individually reaches at least as many empty conflict-free UT
cells as there are eligible dispatchers — and with well-formed distinct ids,
after `assignUTSlots` every UT-eligible dispatcher holds at least one UT cell
(exactly one is still not guaranteed: pre-existing schedules and the
volunteer pass can yield several). -/
theorem C4_amended_ut_completeness (week : Schedule)
    (dispatchers : List ExtendedDispatcher)
    (hids : ∀ d ∈ utEligibleSorted dispatchers,
      d.id ≠ "" ∧ utKey (buildIdByAny dispatchers) d.id = d.id)
    (hdist : (utEligibleSorted dispatchers).Pairwise (fun a b => a.id ≠ b.id))
    (hcap : ∀ d ∈ utEligibleSorted dispatchers,
      1 ≤ countExistingUT week (buildIdByAny dispatchers) d.id ∨
      (utEligibleSorted dispatchers).length ≤ (utReach d week).toFinset.card) :
    ∀ d ∈ utEligibleSorted dispatchers,
      holdsUT (buildIdByAny dispatchers) (assignUTSlots week dispatchers) d.id := by
  intro d hd
  obtain ⟨hall, hph⟩ := assignPrimaryUTSlots_complete (buildIdByAny dispatchers)
    (utEligibleSorted dispatchers) hids hdist week
    (countExistingUT week (buildIdByAny dispatchers))
    (fun x hx => countExistingUT_pos hx) hcap
  have hfilter : (utEligibleSorted dispatchers).filter
      (fun d' => decide ((assignPrimaryUTSlots week
        (countExistingUT week (buildIdByAny dispatchers))
        (utEligibleSorted dispatchers)).2 d'.id = 0)) = [] := by
    refine List.filter_eq_nil.mpr ?_
    intro d' hd'
    have h1 := hall d' hd'
    simp only [decide_eq_true_eq]
    omega
  unfold assignUTSlots
  dsimp only
  rw [hfilter, if_neg (fun hc => hc rfl)]
  have hprim : holdsUT (buildIdByAny dispatchers)
      (assignPrimaryUTSlots week (countExistingUT week (buildIdByAny dispatchers))
        (utEligibleSorted dispatchers)).1 d.id :=
    hph d.id (hall d hd)
  have hWd : ∀ d' ∈ utEligibleSorted dispatchers, d'.workDays ≠ [] :=
    fun d' hd' => (utEligibleSorted_mem hd').2.1
  have hinv := assignExtraUTSlots_inv (utEligibleSorted dispatchers)
    (fun x hx => hx) hWd
    (assignPrimaryUTSlots week (countExistingUT week (buildIdByAny dispatchers))
      (utEligibleSorted dispatchers)).1
    (assignPrimaryUTSlots week (countExistingUT week (buildIdByAny dispatchers))
      (utEligibleSorted dispatchers)).2
    (UTWritesInv_refl (utEligibleSorted dispatchers)
      (assignPrimaryUTSlots week (countExistingUT week (buildIdByAny dispatchers))
        (utEligibleSorted dispatchers)).1)
  exact holdsUT_mono (fun da sl hne => (hinv da sl UT hne).2.1) hprim

/-- C4 witness: the amended theorem at a single eligible dispatcher over the
empty week. -/
theorem C4_witness :
    holdsUT (buildIdByAny [dA4]) (assignUTSlots emptyWeek [dA4]) dA4.id :=
  C4_amended_ut_completeness emptyWeek [dA4] (by decide) (by decide) (by decide)
    dA4 (by decide)

/-! ## Claim C1: double-booking -/

/-- The trimmed first slash-part of a cell value: the "trainer"/primary
position read by `sanitizeLockedAssignments` and `findDispatcherByIdentifier`. -/
def firstPart (v : String) : String :=
  jsTrim ((jsSplitSlash v).headD "")

theorem splitCharList_ne_nil (sep : Char) : ∀ l : List Char,
    splitCharList sep l ≠ [] := by
  intro l
  cases l with
  | nil => simp [splitCharList]
  | cons c cs =>
    unfold splitCharList
    by_cases hc : c = sep
    · rw [if_pos hc]
      simp
    · rw [if_neg hc]
      cases splitCharList sep cs <;> simp

theorem jsSplitSlash_ne_nil (s : String) : jsSplitSlash s ≠ [] := by
  unfold jsSplitSlash
  intro hc
  rw [List.map_eq_nil] at hc
  exact splitCharList_ne_nil '/' s.data hc

theorem splitCharList_no_sep (sep : Char) : ∀ l : List Char, sep ∉ l →
    splitCharList sep l = [l] := by
  intro l
  induction l with
  | nil => intro _; rfl
  | cons c cs ih =>
    intro h
    have hc : ¬ c = sep := fun hcc => h (hcc ▸ List.mem_cons_self _ _)
    have hcs : sep ∉ cs := fun hcc => h (List.mem_cons_of_mem _ hcc)
    unfold splitCharList
    rw [if_neg hc, ih hcs]

theorem jsSplitSlash_no_slash {s : String} (h : jsHasSlash s = false) :
    jsSplitSlash s = [s] := by
  unfold jsSplitSlash
  rw [splitCharList_no_sep '/' s.data (by
    unfold jsHasSlash at h
    simpa using h)]
  rfl

theorem firstPart_of_canonical {v : String} (hslash : jsHasSlash v = false)
    (htrim : jsTrim v = v) : firstPart v = v := by
  unfold firstPart
  rw [jsSplitSlash_no_slash hslash]
  exact htrim

theorem firstPart_mem_cellParticipants {v : String} (hfp : firstPart v ≠ "") :
    firstPart v ∈ cellParticipants v := by
  unfold cellParticipants
  cases hsplit : jsSplitSlash v with
  | nil => exact absurd hsplit (jsSplitSlash_ne_nil v)
  | cons p ps =>
    have hfp' : firstPart v = jsTrim p := by
      unfold firstPart
      rw [hsplit]
      rfl
    refine List.mem_filter.mpr ⟨?_, by simpa using hfp' ▸ hfp⟩
    rw [hfp']
    exact List.mem_map_of_mem jsTrim (List.mem_cons_self _ _)

theorem resolveParticipants_head {v D : String}
    {dispatchers : List ExtendedDispatcher} {d' : ExtendedDispatcher}
    (hv : v ≠ "") (hfp : firstPart v = D) (hslashD : jsHasSlash D = false)
    (hD : findDispatcherByIdentifier D dispatchers = some d') :
    ∃ tl, resolveParticipants v dispatchers = d' :: tl := by
  have hDfind : findDispatcherByIdentifier D dispatchers =
      dispatchers.find? (fun d => d.id = D ∨ d.name = D) := by
    unfold findDispatcherByIdentifier
    rw [if_neg (fun hc => by rw [hslashD] at hc; exact Bool.false_ne_true hc.2)]
  unfold resolveParticipants
  rw [if_neg hv]
  by_cases hslash : jsHasSlash v = true
  · rw [if_pos hslash]
    cases hsplit : jsSplitSlash v with
    | nil => exact absurd hsplit (jsSplitSlash_ne_nil v)
    | cons p ps =>
      have hp : jsTrim p = D := by
        unfold firstPart at hfp
        rw [hsplit] at hfp
        exact hfp
      have hfd : findDispatcherByIdentifier (jsTrim p) dispatchers = some d' := by
        rw [hp]
        exact hD
      simp only [List.map_cons, List.filterMap_cons, hfd]
      exact ⟨_, rfl⟩
  · have hslash' : jsHasSlash v = false := by
      revert hslash
      cases jsHasSlash v <;> simp
    rw [if_neg hslash]
    have hp : jsTrim v = D := by
      unfold firstPart at hfp
      rw [jsSplitSlash_no_slash hslash'] at hfp
      exact hfp
    have hfd : findDispatcherByIdentifier (jsTrim v) dispatchers = some d' := by
      rw [hp]
      exact hD
    simp only [List.filterMap_cons, List.filterMap_nil, hfd]
    exact ⟨_, rfl⟩

/-- Case analysis of one sanitation step at its own cell: either the cell is
kept because its resolved trainer is new to the slot's seen set (which then
records that trainer's id), or the cell ends empty with the seen set
unchanged. -/
theorem sanitizeCell_cases (day : Day) (disp : List ExtendedDispatcher)
    (slot : TimeSlot) (st : ScheduleDay × List String) (col : Column) :
    (∃ trainer rest_r,
      resolveParticipants (st.1 slot col) disp = trainer :: rest_r ∧
      st.2.contains trainer.id = false ∧
      sanitizeCell day disp slot st col = (st.1, trainer.id :: st.2)) ∨
    ((sanitizeCell day disp slot st col).1 slot col = "" ∧
      (sanitizeCell day disp slot st col).2 = st.2) := by
  unfold sanitizeCell
  dsimp only
  split
  next hval => exact Or.inr ⟨hval, rfl⟩
  next hval =>
    split
    next hdis => exact Or.inr ⟨setCell_same _ _ _ _, rfl⟩
    next hdis =>
      split
      next hres => exact Or.inr ⟨setCell_same _ _ _ _, rfl⟩
      next trainer rest_r hres =>
        split
        next hvalid =>
          refine Or.inl ⟨trainer, rest_r, hres, ?_, rfl⟩
          have h2 := ((Bool.and_eq_true _ _).mp hvalid).2
          simpa using h2
        next hvalid => exact Or.inr ⟨setCell_same _ _ _ _, rfl⟩

theorem sanitizeCell_seen (day : Day) (disp : List ExtendedDispatcher)
    (slot : TimeSlot) (st : ScheduleDay × List String) (col : Column) :
    ∀ x ∈ st.2, x ∈ (sanitizeCell day disp slot st col).2 := by
  intro x hx
  rcases sanitizeCell_cases day disp slot st col with ⟨t, r, _, _, heq⟩ | ⟨_, heq⟩
  · rw [heq]
    exact List.mem_cons_of_mem _ hx
  · rw [heq]
    exact hx

theorem sanitizeFold_seen (day : Day) (disp : List ExtendedDispatcher)
    (slot : TimeSlot) :
    ∀ (l : List Column) (st : ScheduleDay × List String) (x : String), x ∈ st.2 →
    x ∈ (l.foldl (sanitizeCell day disp slot) st).2 := by
  intro l
  induction l with
  | nil => exact fun st x hx => hx
  | cons col rest ih =>
    intro st x hx
    simp only [List.foldl_cons]
    exact ih _ x (sanitizeCell_seen day disp slot st col x hx)

theorem sanitizeFold_not_mem (day : Day) (disp : List ExtendedDispatcher)
    (slot : TimeSlot) :
    ∀ (l : List Column) (st : ScheduleDay × List String) (c : Column), c ∉ l →
    (l.foldl (sanitizeCell day disp slot) st).1 slot c = st.1 slot c := by
  intro l
  induction l with
  | nil => exact fun st c _ => rfl
  | cons col rest ih =>
    intro st c hc
    simp only [List.foldl_cons]
    have h1 : c ∉ rest := fun hh => hc (List.mem_cons_of_mem _ hh)
    have h2 : ¬(slot = slot ∧ c = col) := fun hh => hc (hh.2 ▸ List.mem_cons_self _ _)
    rw [ih _ c h1, sanitizeCell_other day disp slot st col h2]

/-- If a cell survives its sanitation step with first part `D`, the slot's
seen set did not contain the canonical resolver of `D` before and does
contain it after. -/
theorem sanitizeCell_head (day : Day) (disp : List ExtendedDispatcher)
    (slot : TimeSlot) (st : ScheduleDay × List String) (col : Column)
    {D : String} {d' : ExtendedDispatcher}
    (hslashD : jsHasSlash D = false)
    (hD : findDispatcherByIdentifier D disp = some d')
    (hne : (sanitizeCell day disp slot st col).1 slot col ≠ "")
    (hfp : firstPart ((sanitizeCell day disp slot st col).1 slot col) = D) :
    d'.id ∉ st.2 ∧ d'.id ∈ (sanitizeCell day disp slot st col).2 := by
  rcases sanitizeCell_cases day disp slot st col with
    ⟨trainer, rest_r, hres, hcont, heq⟩ | ⟨hempty, _⟩
  · rw [heq] at hne hfp ⊢
    dsimp only at hne hfp ⊢
    obtain ⟨tl, htl⟩ := resolveParticipants_head hne hfp hslashD hD
    rw [hres] at htl
    have htr : trainer = d' := (List.cons_eq_cons.mp htl).1
    rw [htr] at hcont ⊢
    refine ⟨?_, List.mem_cons_self _ _⟩
    intro hmem
    have hcc : st.2.contains d'.id = true := by simpa using hmem
    rw [hcc] at hcont
    exact Bool.noConfusion hcont
  · exact absurd hempty hne

/-- Once the slot's seen set holds the canonical resolver of `D`, no cell of
the remaining columns survives sanitation with first part `D`. -/
theorem sanitizeFold_blocked (day : Day) (disp : List ExtendedDispatcher)
    (slot : TimeSlot) {D : String} {d' : ExtendedDispatcher}
    (hslashD : jsHasSlash D = false)
    (hD : findDispatcherByIdentifier D disp = some d') :
    ∀ (l : List Column), l.Nodup → ∀ (st : ScheduleDay × List String),
      d'.id ∈ st.2 → ∀ c ∈ l,
      (l.foldl (sanitizeCell day disp slot) st).1 slot c ≠ "" →
      firstPart ((l.foldl (sanitizeCell day disp slot) st).1 slot c) = D → False := by
  intro l
  induction l with
  | nil =>
    intro _ st _ c hc
    exact absurd hc (List.not_mem_nil c)
  | cons col rest ih =>
    intro hnd st hseen c hc hne hfp
    simp only [List.foldl_cons] at hne hfp
    have hnd' := List.nodup_cons.mp hnd
    have hseen' : d'.id ∈ (sanitizeCell day disp slot st col).2 :=
      sanitizeCell_seen day disp slot st col d'.id hseen
    rcases List.mem_cons.mp hc with rfl | hcr
    · have hrow := sanitizeFold_not_mem day disp slot rest
        (sanitizeCell day disp slot st c) c hnd'.1
      rw [hrow] at hne hfp
      exact (sanitizeCell_head day disp slot st c hslashD hD hne hfp).1 hseen
    · exact ih hnd'.2 (sanitizeCell day disp slot st col) hseen' c hcr hne hfp

/-- At most one column of a slot survives the sanitation fold with a given
first part `D` (for `D` resolving to a dispatcher). -/
theorem sanitizeFold_head_distinct (day : Day) (disp : List ExtendedDispatcher)
    (slot : TimeSlot) {D : String} {d' : ExtendedDispatcher}
    (hslashD : jsHasSlash D = false)
    (hD : findDispatcherByIdentifier D disp = some d') :
    ∀ (l : List Column), l.Nodup → ∀ (st : ScheduleDay × List String)
      (c1 c2 : Column), c1 ∈ l → c2 ∈ l → c1 ≠ c2 →
      (l.foldl (sanitizeCell day disp slot) st).1 slot c1 ≠ "" →
      firstPart ((l.foldl (sanitizeCell day disp slot) st).1 slot c1) = D →
      (l.foldl (sanitizeCell day disp slot) st).1 slot c2 ≠ "" →
      firstPart ((l.foldl (sanitizeCell day disp slot) st).1 slot c2) = D →
      False := by
  intro l
  induction l with
  | nil =>
    intro _ st c1 c2 hc1
    exact absurd hc1 (List.not_mem_nil c1)
  | cons col rest ih =>
    intro hnd st c1 c2 hc1 hc2 h12 hne1 hfp1 hne2 hfp2
    simp only [List.foldl_cons] at hne1 hfp1 hne2 hfp2
    have hnd' := List.nodup_cons.mp hnd
    rcases List.mem_cons.mp hc1 with rfl | hc1r
    · rcases List.mem_cons.mp hc2 with rfl | hc2r
      · exact h12 rfl
      · have hrow := sanitizeFold_not_mem day disp slot rest
          (sanitizeCell day disp slot st c1) c1 hnd'.1
        rw [hrow] at hne1 hfp1
        have hkept := (sanitizeCell_head day disp slot st c1 hslashD hD hne1 hfp1).2
        exact sanitizeFold_blocked day disp slot hslashD hD rest hnd'.2
          (sanitizeCell day disp slot st c1) hkept c2 hc2r hne2 hfp2
    · rcases List.mem_cons.mp hc2 with rfl | hc2r
      · have hrow := sanitizeFold_not_mem day disp slot rest
          (sanitizeCell day disp slot st c2) c2 hnd'.1
        rw [hrow] at hne2 hfp2
        have hkept := (sanitizeCell_head day disp slot st c2 hslashD hD hne2 hfp2).2
        exact sanitizeFold_blocked day disp slot hslashD hD rest hnd'.2
          (sanitizeCell day disp slot st c2) hkept c1 hc1r hne1 hfp1
      · exact ih hnd'.2 (sanitizeCell day disp slot st col) c1 c2 hc1r hc2r h12
          hne1 hfp1 hne2 hfp2

/-- At most one column per slot of a sanitized day holds a cell whose first
part is `D`, for any identifier `D` resolving to a dispatcher. -/
theorem sanitizeLockedAssignments_head_distinct (day : Day)
    (sched : ScheduleDay) (disp : List ExtendedDispatcher)
    {D : String} {d' : ExtendedDispatcher}
    (hslashD : jsHasSlash D = false)
    (hD : findDispatcherByIdentifier D disp = some d')
    (slot : TimeSlot) (c1 c2 : Column) (h12 : c1 ≠ c2)
    (hne1 : sanitizeLockedAssignments day sched disp slot c1 ≠ "")
    (hfp1 : firstPart (sanitizeLockedAssignments day sched disp slot c1) = D)
    (hne2 : sanitizeLockedAssignments day sched disp slot c2 ≠ "")
    (hfp2 : firstPart (sanitizeLockedAssignments day sched disp slot c2) = D) :
    False := by
  have hmemS : slot ∈ timeSlots := by cases slot <;> decide
  have hndS : timeSlots.Nodup := by decide
  have main : ∀ (sl : List TimeSlot), sl.Nodup → slot ∈ sl →
      ∀ (sched0 : ScheduleDay),
      (sl.foldl (fun sched sl' =>
        (columns.foldl (sanitizeCell day disp sl') (sched, ([] : List String))).1)
        sched0) slot c1 ≠ "" →
      firstPart ((sl.foldl (fun sched sl' =>
        (columns.foldl (sanitizeCell day disp sl') (sched, ([] : List String))).1)
        sched0) slot c1) = D →
      (sl.foldl (fun sched sl' =>
        (columns.foldl (sanitizeCell day disp sl') (sched, ([] : List String))).1)
        sched0) slot c2 ≠ "" →
      firstPart ((sl.foldl (fun sched sl' =>
        (columns.foldl (sanitizeCell day disp sl') (sched, ([] : List String))).1)
        sched0) slot c2) = D → False := by
    intro sl
    induction sl with
    | nil =>
      intro _ hmem
      exact absurd hmem (List.not_mem_nil slot)
    | cons sl0 rest ih =>
      intro hnd hmem sched0 hne1 hfp1 hne2 hfp2
      simp only [List.foldl_cons] at hne1 hfp1 hne2 hfp2
      have hnd' := List.nodup_cons.mp hnd
      rcases List.mem_cons.mp hmem with rfl | hrest
      · have hout : slot ∉ rest := hnd'.1
        have hrow1 := sanitizeSlotFold_other day disp slot c1 rest
          ((columns.foldl (sanitizeCell day disp slot)
            (sched0, ([] : List String))).1) hout
        have hrow2 := sanitizeSlotFold_other day disp slot c2 rest
          ((columns.foldl (sanitizeCell day disp slot)
            (sched0, ([] : List String))).1) hout
        rw [hrow1] at hne1 hfp1
        rw [hrow2] at hne2 hfp2
        exact sanitizeFold_head_distinct day disp slot hslashD hD columns
          (by decide) (sched0, ([] : List String)) c1 c2
          (by cases c1 <;> decide) (by cases c2 <;> decide) h12
          hne1 hfp1 hne2 hfp2
      · exact ih hnd'.2 hrest _ hne1 hfp1 hne2 hfp2
  exact main timeSlots hndS hmemS (cloneScheduleDay sched) hne1 hfp1 hne2 hfp2

/-- "No dispatcher id heads more than one column of a slot": the corrected
per-slot double-booking invariant. -/
def HeadDistinct (D : String) (sched : ScheduleDay) : Prop :=
  ∀ slot c1 c2, c1 ≠ c2 →
    sched slot c1 ≠ "" → firstPart (sched slot c1) = D →
    sched slot c2 ≠ "" → firstPart (sched slot c2) = D → False

theorem HeadDistinct_write {day : Day} {D : String} {sched : ScheduleDay}
    {e : ExtendedDispatcher} {s : TimeSlot} {c : Column}
    (hok : WriteOk day e sched s c)
    (hid : e.id ≠ "" ∧ jsTrim e.id = e.id ∧ jsHasSlash e.id = false)
    (hP : HeadDistinct D sched) : HeadDistinct D (setCell sched s c e.id) := by
  have hkey : ∀ c2, ¬(s = s ∧ c2 = c) → sched s c2 ≠ "" →
      firstPart (sched s c2) = e.id → False := by
    intro c2 hne2 hcell2 hfp2
    have hmem : e.id ∈ cellParticipants (sched s c2) := by
      rw [← hfp2]
      exact firstPart_mem_cellParticipants (by rw [hfp2]; exact hid.1)
    have hany : isDispatcherInTimeslot e.id sched s = true := by
      unfold isDispatcherInTimeslot
      refine List.any_eq_true.mpr ⟨c2, by cases c2 <;> decide, ?_⟩
      dsimp only
      rw [if_neg hcell2]
      simpa using hmem
    rw [hok.2.2.2.2] at hany
    exact Bool.noConfusion hany
  intro slot c1 c2 h12 hne1 hfp1 hne2 hfp2
  by_cases h1 : slot = s ∧ c1 = c
  · have h2 : ¬(slot = s ∧ c2 = c) := fun hc => h12 (h1.2.trans hc.2.symm)
    rw [h1.1, h1.2, setCell_same] at hfp1
    rw [setCell_ne _ _ _ _ h2] at hne2 hfp2
    have hfpid : firstPart e.id = e.id := firstPart_of_canonical hid.2.2 hid.2.1
    rw [hfpid] at hfp1
    rw [← hfp1] at hfp2
    exact hkey c2 (fun hc => h2 ⟨h1.1, hc.2⟩) (h1.1 ▸ hne2) (h1.1 ▸ hfp2)
  · by_cases h2 : slot = s ∧ c2 = c
    · rw [h2.1, h2.2, setCell_same] at hfp2
      rw [setCell_ne _ _ _ _ h1] at hne1 hfp1
      have hfpid : firstPart e.id = e.id := firstPart_of_canonical hid.2.2 hid.2.1
      rw [hfpid] at hfp2
      rw [← hfp2] at hfp1
      exact hkey c1 (fun hc => h1 ⟨h2.1, hc.2⟩) (h2.1 ▸ hne1) (h2.1 ▸ hfp1)
    · rw [setCell_ne _ _ _ _ h1] at hne1 hfp1
      rw [setCell_ne _ _ _ _ h2] at hne2 hfp2
      exact hP slot c1 c2 h12 hne1 hfp1 hne2 hfp2

theorem filter_length_le_one {α : Type} {l : List α} (hnd : l.Nodup)
    (p : α → Bool) (h : ∀ a b, a ≠ b → p a = true → p b = true → False) :
    (l.filter p).length ≤ 1 := by
  rcases hf : l.filter p with _ | ⟨a, _ | ⟨b, t⟩⟩
  · simp
  · simp
  · exfalso
    have hnd' : (a :: b :: t).Nodup := hf ▸ hnd.filter p
    have hab : a ≠ b := by
      have hh := List.nodup_cons.mp hnd'
      exact fun hcc => hh.1 (hcc ▸ List.mem_cons_self b t)
    have hma : a ∈ l.filter p := by
      rw [hf]
      exact List.mem_cons_self _ _
    have hmb : b ∈ l.filter p := by
      rw [hf]
      exact List.mem_cons_of_mem _ (List.mem_cons_self _ _)
    have hpa : p a = true := List.of_mem_filter hma
    have hpb : p b = true := List.of_mem_filter hmb
    exact h a b hab hpa hpb

/-- The day passes from the sanitized seed on keep the per-slot
first-part distinctness, for any identifier resolving to a dispatcher. -/
theorem dayPasses_head_distinct (day : Day)
    (dispatchers : List ExtendedDispatcher) (sched0 : ScheduleDay)
    (hIds : ∀ d ∈ dispatchers,
      d.id ≠ "" ∧ jsTrim d.id = d.id ∧ jsHasSlash d.id = false)
    {D : String} {d' : ExtendedDispatcher} (hslashD : jsHasSlash D = false)
    (hD : findDispatcherByIdentifier D dispatchers = some d') :
    HeadDistinct D
      (processExtraRadioAssignments
        (processDispatcherAssignments
          (sanitizeLockedAssignments day
            (normalizeScheduleDayToIds sched0 dispatchers) dispatchers)
          (prepareDispatchers dispatchers day) day)
        (prepareDispatchers dispatchers day) day) := by
  have hsan : HeadDistinct D (sanitizeLockedAssignments day
      (normalizeScheduleDayToIds sched0 dispatchers) dispatchers) :=
    fun slot c1 c2 h12 hne1 hfp1 hne2 hfp2 =>
      sanitizeLockedAssignments_head_distinct day _ dispatchers hslashD hD
        slot c1 c2 h12 hne1 hfp1 hne2 hfp2
  have HP : ∀ sched e s c, e ∈ prepareDispatchers dispatchers day →
      WriteOk day e sched s c → HeadDistinct D sched →
      HeadDistinct D (setCell sched s c e.id) :=
    fun _ e _ _ hmem hok hP =>
      HeadDistinct_write hok (hIds e (prepareDispatchers_subset hmem)) hP
  exact processExtraRadioAssignments_preserve (HeadDistinct D)
    day (prepareDispatchers dispatchers day) HP _
    (processDispatcherAssignments_preserve (HeadDistinct D)
      day (prepareDispatchers dispatchers day) HP _ hsan)

/-- Dispatcher `A` of the C1 day-level counterexample. -/
def d1C1 : ExtendedDispatcher := { id := "A" }

/-- Dispatcher `B` of the C1 day-level counterexample. -/
def d2C1 : ExtendedDispatcher := { id := "B" }

/-- C1 locked day: `A` holds SW bare, and also rides CE as `B`'s trainee. -/
def lockedC1 : ScheduleDay :=
  mkDay [(TimeSlot.t0330, Column.SW, "A"), (TimeSlot.t0330, Column.CE, "B/A")]

/-- Lone dispatcher of the C1 week-level counterexample. -/
def dXC1 : ExtendedDispatcher := { id := "X" }

/-- C1 current week: `X` sits in two columns of the same Monday slot. -/
def weekC1 : Schedule :=
  mkWeek [(Day.monday, mkDay [(TimeSlot.t0330, Column.SW, "X"),
    (TimeSlot.t0330, Column.CE, "X")])]

/-- C1 counterexample: the no-double-booking claim fails in the participant
(trainer-or-trainee-half) reading for `GenerateDay` — the sanitizer's seen
set tracks only the resolved trainer, so `A` survives both as the bare SW
value and as the trainee half of CE in the same slot — and fails entirely
for `GenerateWeek`, where merging the solved day over the caller's current
day resurrects the duplicate the sanitizer had cleared, leaving `X` as a
participant in two columns of Monday's first slot. -/
theorem C1_counterexample :
    (Column.SW ≠ Column.CE ∧
     "A" ∈ cellParticipants (generateScheduleForDay Day.monday [d1C1, d2C1]
       (some lockedC1) TimeSlot.t0330 Column.SW) ∧
     "A" ∈ cellParticipants (generateScheduleForDay Day.monday [d1C1, d2C1]
       (some lockedC1) TimeSlot.t0330 Column.CE)) ∧
    ("X" ∈ cellParticipants (generateWeeklySchedule weekC1 [dXC1]
       Day.monday TimeSlot.t0330 Column.SW) ∧
     "X" ∈ cellParticipants (generateWeeklySchedule weekC1 [dXC1]
       Day.monday TimeSlot.t0330 Column.CE)) := by
  exact ⟨⟨by decide, by decide, by decide⟩, ⟨by decide, by decide⟩⟩

/-- C1 (amended): in the `GenerateDay` output, for every dispatcher id of a
roster with canonical (non-empty, trimmed, slash-free) ids, at most one
column of each slot holds a cell whose first (trainer/bare) part is that id.
The stronger participant reading, and the `GenerateWeek` half of the claim,
are refuted by the counterexample. -/
theorem C1_amended_primary_distinct (day : Day)
    (dispatchers : List ExtendedDispatcher) (locked : Option ScheduleDay)
    (hIds : ∀ d ∈ dispatchers,
      d.id ≠ "" ∧ jsTrim d.id = d.id ∧ jsHasSlash d.id = false)
    (d0 : ExtendedDispatcher) (hd0 : d0 ∈ dispatchers) :
    ∀ slot, (columns.filter (fun c =>
      decide (generateScheduleForDay day dispatchers locked slot c ≠ "" ∧
        firstPart (generateScheduleForDay day dispatchers locked slot c) =
          d0.id))).length ≤ 1 := by
  intro slot
  obtain ⟨hne0, htrim0, hslash0⟩ := hIds d0 hd0
  have hfind : ∃ d', findDispatcherByIdentifier d0.id dispatchers = some d' := by
    have hsome : (findDispatcherByIdentifier d0.id dispatchers).isSome := by
      unfold findDispatcherByIdentifier
      rw [if_neg (fun hc => by rw [hslash0] at hc; exact Bool.noConfusion hc.2)]
      exact List.find?_isSome.mpr ⟨d0, hd0, by simp⟩
    cases hf : findDispatcherByIdentifier d0.id dispatchers with
    | none =>
      rw [hf] at hsome
      exact absurd hsome (by simp)
    | some d' => exact ⟨d', rfl⟩
  obtain ⟨d', hD⟩ := hfind
  have hHD : HeadDistinct d0.id (generateScheduleForDay day dispatchers locked) := by
    cases locked with
    | none =>
      exact dayPasses_head_distinct day dispatchers createEmptyScheduleDay
        hIds hslash0 hD
    | some l =>
      exact dayPasses_head_distinct day dispatchers (cloneScheduleDay l)
        hIds hslash0 hD
  refine filter_length_le_one (by decide) _ ?_
  intro c1 c2 h12 hp1 hp2
  simp only [decide_eq_true_eq] at hp1 hp2
  exact hHD slot c1 c2 h12 hp1.1 hp1.2 hp2.1 hp2.2

/-- C1 witness: the amended theorem at a concrete roster and slot. -/
theorem C1_witness :
    (columns.filter (fun c =>
      decide (generateScheduleForDay Day.monday [d1C1, d2C1] (some lockedC1)
        TimeSlot.t0330 c ≠ "" ∧
        firstPart (generateScheduleForDay Day.monday [d1C1, d2C1]
          (some lockedC1) TimeSlot.t0330 c) = d1C1.id))).length ≤ 1 :=
  C1_amended_primary_distinct Day.monday [d1C1, d2C1] (some lockedC1)
    (by decide) d1C1 (by decide) TimeSlot.t0330
